import Mathlib

/-!
# Verification of the Web-Spy crawl core

A shallow embedding, in Lean 4, of the crawl-frontier, URL-utility,
content-fingerprinting and price-monitoring code of the
`competitor-analyzer` repository
(`backend/app/services/crawl_queue.py`, `crawl_utils.py`,
`price_monitor.py`), together with theorems settling the specified
behavioural properties of that code.

Python data is modelled as follows: `str` becomes `String`/`List Char`
(Unicode code points; `str.lower` is modelled on the ASCII range, which
covers every string these services compare), `set`/`dict` become lists
queried by membership (insertion only when absent, so they stay
duplicate-free), machine integers become `Nat`/`Int`, and `Decimal`
/ `float` arithmetic in the price monitor is modelled by exact rational
arithmetic (`ℚ`).  Functions that can raise return `Option`.  The
`heapq` functions from the CPython standard library, which
`crawl_queue.py` relies on for its ordering behaviour, are embedded
operation by operation from CPython 3.11 `Lib/heapq.py`.
-/

namespace WebSpy

/-! ## CPython `heapq` (Lib/heapq.py), embedded on `List α`

The CPython heap functions index into a Python list; we model the list
as `List α` and an in-bounds read `heap[i]` as `List.getD i default`
(each read performed by the Python code is in bounds whenever the
entry-point preconditions hold, which the theorems assume).
`heap[i] = v` becomes `List.set i v`. -/

/-- `heap[i]` for the heap array (all reads made by the code are in
bounds; the default is never returned under the theorems' hypotheses). -/
def hget [Inhabited α] (a : List α) (i : Nat) : α :=
  a.getD i default

/-- CPython `heapq._siftdown(heap, startpos, pos)` specialised to the
functional style: `newitem` is the value being sifted toward the root;
the Python code keeps it in a local and writes it once at the end. -/
def pySiftdown [Inhabited α] (lt : α → α → Bool) (startpos : Nat)
    (a : List α) (pos : Nat) (newitem : α) : List α :=
  if startpos < pos then
    let parentpos := (pos - 1) / 2
    let parent := hget a parentpos
    if lt newitem parent then
      pySiftdown lt startpos (a.set pos parent) parentpos newitem
    else
      a.set pos newitem
  else
    a.set pos newitem
termination_by pos
decreasing_by simp_wf; omega

/-- The loop of CPython `heapq._siftup`: bubble the smaller child up
until reaching a leaf; returns the array and the leaf position of the
hole.  On equal children CPython moves the *right* child up
(`if rightpos < endpos and not heap[childpos] < heap[rightpos]`). -/
def pySiftupLoop [Inhabited α] (lt : α → α → Bool)
    (a : List α) (pos : Nat) : List α × Nat :=
  let childpos := 2 * pos + 1
  if h : childpos < a.length then
    let rightpos := childpos + 1
    let c :=
      if rightpos < a.length && !(lt (hget a childpos) (hget a rightpos)) then
        rightpos
      else
        childpos
    pySiftupLoop lt (a.set pos (hget a c)) c
  else
    (a, pos)
termination_by a.length - pos
decreasing_by
  simp_wf
  split <;> omega

/-- CPython `heapq._siftup(heap, pos)`. -/
def pySiftup [Inhabited α] (lt : α → α → Bool)
    (a : List α) (pos : Nat) : List α :=
  let newitem := hget a pos
  let r := pySiftupLoop lt a pos
  pySiftdown lt pos r.1 r.2 newitem

/-- CPython `heapq.heappush(heap, item)`. -/
def pyHeappush [Inhabited α] (lt : α → α → Bool)
    (a : List α) (item : α) : List α :=
  pySiftdown lt 0 (a ++ [item]) a.length item

/-- CPython `heapq.heappop(heap)`; `none` on the empty heap (Python
raises `IndexError` there, a path `crawl_queue.py` never reaches). -/
def pyHeappop [Inhabited α] (lt : α → α → Bool)
    (a : List α) : Option (α × List α) :=
  if a.isEmpty then
    none
  else
    let lastelt := hget a (a.length - 1)
    let a1 := a.dropLast
    if a1.isEmpty then
      some (lastelt, a1)
    else
      some (hget a1 0, pySiftup lt (a1.set 0 lastelt) 0)

/-! ### Index and multiset bookkeeping for the heap model -/

theorem hget_set_self [Inhabited α] (a : List α) (i : Nat) (x : α)
    (h : i < a.length) : hget (a.set i x) i = x := by
  simp [hget, List.getD_eq_getElem?_getD, List.getElem?_set_self, h]

theorem hget_set_ne [Inhabited α] (a : List α) (i j : Nat) (x : α)
    (h : i ≠ j) : hget (a.set i x) j = hget a j := by
  simp [hget, List.getD_eq_getElem?_getD, List.getElem?_set_ne h]

theorem hget_append_lt [Inhabited α] (a b : List α) (i : Nat)
    (h : i < a.length) : hget (a ++ b) i = hget a i := by
  simp [hget, List.getD_eq_getElem?_getD, List.getElem?_append, h]

theorem hget_append_right [Inhabited α] (a : List α) (x : α) :
    hget (a ++ [x]) a.length = x := by
  simp [hget, List.getD_eq_getElem?_getD]

theorem hget_dropLast [Inhabited α] (a : List α) (i : Nat)
    (h : i + 1 < a.length) : hget a.dropLast i = hget a i := by
  have h1 : i < a.dropLast.length := by
    simp [List.length_dropLast]; omega
  have h2 : i < a.length := by omega
  simp only [hget, List.getD_eq_getElem?_getD, List.getElem?_eq_getElem h1,
    List.getElem?_eq_getElem h2, Option.getD_some]
  exact List.getElem_dropLast a i h1

theorem mem_of_hget [Inhabited α] (a : List α) (i : Nat)
    (h : i < a.length) : hget a i ∈ a := by
  have : hget a i = a[i] := by
    simp [hget, List.getD_eq_getElem?_getD, List.getElem?_eq_getElem h]
  rw [this]
  exact List.getElem_mem h

theorem exists_hget_of_mem [Inhabited α] {a : List α} {x : α}
    (h : x ∈ a) : ∃ i, i < a.length ∧ hget a i = x := by
  obtain ⟨i, hi, hx⟩ := List.mem_iff_getElem.1 h
  exact ⟨i, hi, by
    simp [hget, List.getD_eq_getElem?_getD, List.getElem?_eq_getElem hi, hx]⟩

theorem ms_set [Inhabited α] (a : List α) (i : Nat) (x : α)
    (h : i < a.length) :
    hget a i ::ₘ ((a.set i x : List α) : Multiset α) = x ::ₘ (a : Multiset α) := by
  induction a generalizing i with
  | nil => simp at h
  | cons y ys ih =>
    cases i with
    | zero =>
      simp only [hget, List.set, List.getD_cons_zero]
      exact Multiset.cons_swap y x (ys : Multiset α)
    | succ n =>
      have hn : n < ys.length := by simpa using h
      have : hget (y :: ys) (n + 1) = hget ys n := by
        simp [hget]
      rw [List.set_cons_succ]
      have coe_cons : ((y :: ys.set n x : List α) : Multiset α)
          = y ::ₘ ((ys.set n x : List α) : Multiset α) := by
        simp
      rw [this, coe_cons]
      have step := ih n hn
      have : hget ys n ::ₘ y ::ₘ ((ys.set n x : List α) : Multiset α)
          = y ::ₘ (hget ys n ::ₘ ((ys.set n x : List α) : Multiset α)) := by
        exact Multiset.cons_swap _ _ _
      calc hget ys n ::ₘ ((y :: ys.set n x : List α) : Multiset α)
          = hget ys n ::ₘ y ::ₘ ((ys.set n x : List α) : Multiset α) := by simp
        _ = y ::ₘ (hget ys n ::ₘ ((ys.set n x : List α) : Multiset α)) :=
            Multiset.cons_swap _ _ _
        _ = y ::ₘ x ::ₘ ((ys : List α) : Multiset α) := by rw [step]
        _ = x ::ₘ y ::ₘ ((ys : List α) : Multiset α) := Multiset.cons_swap _ _ _
        _ = x ::ₘ ((y :: ys : List α) : Multiset α) := by simp

/-! ### The binary-heap invariant, and correctness of the CPython routines

`crawl_queue.py` compares `CrawlItem`s with the dataclass `__lt__`,
which compares only the `priority` field; all ordering lemmas are
therefore stated for a comparison `keyLt key` induced by a numeric key. -/

/-- Comparison by a numeric key, the shape of `CrawlItem.__lt__`. -/
def keyLt (key : α → Nat) : α → α → Bool :=
  fun x y => decide (key x < key y)

/-- The min-heap invariant of `heapq`: every entry is at least its
parent (`heap[k] <= heap[2*k+1]` and `heap[k] <= heap[2*k+2]`). -/
def IsHeap [Inhabited α] (key : α → Nat) (a : List α) : Prop :=
  ∀ i, 0 < i → i < a.length → key (hget a ((i - 1) / 2)) ≤ key (hget a i)

theorem keyLt_true {key : α → Nat} {x y : α} (h : keyLt key x y = true) :
    key x < key y := by
  simpa [keyLt] using h

theorem keyLt_false {key : α → Nat} {x y : α} (h : ¬ keyLt key x y = true) :
    key y ≤ key x := by
  simp only [keyLt, decide_eq_true_eq] at h
  omega

theorem pySiftdown_length [Inhabited α] (lt : α → α → Bool) (s : Nat)
    (a : List α) (pos : Nat) (x : α) :
    (pySiftdown lt s a pos x).length = a.length := by
  induction a, pos, x using pySiftdown.induct lt s with
  | case1 a pos x hpos pp par hlt ih =>
    rw [pySiftdown.eq_def]
    simp only [if_pos hpos]
    split
    · rw [ih]; simp
    · simp_all
  | case2 a pos x hpos pp par hlt =>
    rw [pySiftdown.eq_def]
    simp only [if_pos hpos]
    split
    · simp_all
    · simp
  | case3 a pos x hpos =>
    rw [pySiftdown.eq_def]
    simp [hpos]

theorem pySiftdown_ms [Inhabited α] (lt : α → α → Bool) (s : Nat)
    (a : List α) (pos : Nat) (x : α) (hlen : pos < a.length) :
    hget a pos ::ₘ ((pySiftdown lt s a pos x : List α) : Multiset α)
      = x ::ₘ (a : Multiset α) := by
  induction a, pos, x using pySiftdown.induct lt s with
  | case1 a pos x hpos pp par hlt ih =>
    rw [pySiftdown.eq_def]
    simp only [if_pos hpos]
    split
    · have hpne : pp ≠ pos := by simp only [pp]; omega
      have hplen : pp < a.length := by simp only [pp]; omega
      have hslen : pp < (a.set pos par).length := by
        simpa using hplen
      have ihx := ih hslen
      rw [hget_set_ne a pos pp par hpne.symm] at ihx
      have hms := ms_set a pos par hlen
      have step : hget a pos ::ₘ hget a pp ::ₘ
          ((pySiftdown lt s (a.set pos par) pp x : List α) : Multiset α)
          = hget a pos ::ₘ x ::ₘ ((a.set pos par : List α) : Multiset α) := by
        rw [ihx]
      have hpar : hget a pp = par := rfl
      rw [hpar] at step
      have lhs : hget a pos ::ₘ par ::ₘ
          ((pySiftdown lt s (a.set pos par) pp x : List α) : Multiset α)
          = par ::ₘ hget a pos ::ₘ
            ((pySiftdown lt s (a.set pos par) pp x : List α) : Multiset α) :=
        Multiset.cons_swap _ _ _
      have rhs : hget a pos ::ₘ x ::ₘ ((a.set pos par : List α) : Multiset α)
          = x ::ₘ (hget a pos ::ₘ ((a.set pos par : List α) : Multiset α)) :=
        Multiset.cons_swap _ _ _
      rw [lhs, rhs, hms, Multiset.cons_swap x par] at step
      exact (Multiset.cons_inj_right par).1 step
    · exact absurd hlt (by assumption)
  | case2 a pos x hpos pp par hlt =>
    rw [pySiftdown.eq_def]
    simp only [if_pos hpos]
    split
    · exact absurd (by assumption) hlt
    · exact ms_set a pos x hlen
  | case3 a pos x hpos =>
    rw [pySiftdown.eq_def]
    rw [if_neg hpos]
    exact ms_set a pos x hlen

/-- `_siftdown` repairs the heap: if the array is a heap everywhere
except at the hole `pos`, the children of the hole dominate both the
sifted value and the hole's parent, then after sifting `x` from `pos`
toward the root the whole array is a heap. -/
theorem pySiftdown_isHeap [Inhabited α] (key : α → Nat)
    (a : List α) (pos : Nat) (x : α) :
    pos < a.length →
    (∀ i, 0 < i → i < a.length → i ≠ pos → (i - 1) / 2 ≠ pos →
      key (hget a ((i - 1) / 2)) ≤ key (hget a i)) →
    (∀ i, 0 < i → i < a.length → (i - 1) / 2 = pos → key x ≤ key (hget a i)) →
    (∀ i, 0 < i → i < a.length → (i - 1) / 2 = pos → 0 < pos →
      key (hget a ((pos - 1) / 2)) ≤ key (hget a i)) →
    IsHeap key (pySiftdown (keyLt key) 0 a pos x) := by
  induction a, pos, x using pySiftdown.induct (keyLt key) 0 with
  | case1 a pos x hpos pp par hlt ih =>
    intro hlen hA hB hC
    rw [pySiftdown.eq_def]
    simp only [if_pos hpos]
    split
    case isFalse hcond => exact absurd hlt hcond
    case isTrue hcond =>
    have hppv : pp = (pos - 1) / 2 := rfl
    have hparv : par = hget a pp := rfl
    have hpplt : pp < pos := by omega
    have hpplen : pp < a.length := by omega
    have hkx : key x < key par := keyLt_true hlt
    have hslen : (a.set pos par).length = a.length := by simp
    have get_pos : hget (a.set pos par) pos = par := hget_set_self a pos par hlen
    have get_ne : ∀ j, j ≠ pos → hget (a.set pos par) j = hget a j := by
      intro j hj
      exact hget_set_ne a pos j par (fun h => hj h.symm)
    refine ih (by omega) ?_ ?_ ?_
    · -- edges not touching the new hole `pp`
      intro i hi0 hilen hipp hiqpp
      have hilen' : i < a.length := by omega
      by_cases hiq : (i - 1) / 2 = pos
      · have hipos : i ≠ pos := by omega
        rw [hiq, get_pos, get_ne i hipos]
        exact hC i hi0 hilen' hiq hpos
      · by_cases hipos : i = pos
        · exact absurd (by rw [hipos]) hiqpp
        · rw [get_ne _ hiq, get_ne _ hipos]
          exact hA i hi0 hilen' hipos hiq
    · -- children of the new hole dominate `x`
      intro i hi0 hilen hiq
      have hilen' : i < a.length := by omega
      by_cases hipos : i = pos
      · rw [hipos, get_pos]
        exact le_of_lt hkx
      · rw [get_ne _ hipos]
        have hedge : key (hget a ((i - 1) / 2)) ≤ key (hget a i) :=
          hA i hi0 hilen' hipos (by omega)
        rw [hiq, ← hparv] at hedge
        exact le_trans (le_of_lt hkx) hedge
    · -- children of the new hole dominate the new hole's parent
      intro i hi0 hilen hiq hpp0
      have hilen' : i < a.length := by omega
      have hgne : (pp - 1) / 2 ≠ pos := by omega
      rw [get_ne _ hgne]
      have hedge_pp : key (hget a ((pp - 1) / 2)) ≤ key (hget a pp) := by
        have := hA pp hpp0 hpplen (by omega) (by omega)
        rw [hppv]
        rw [hppv] at this
        exact this
      by_cases hipos : i = pos
      · rw [hipos, get_pos, hparv]
        exact hedge_pp
      · rw [get_ne _ hipos]
        have hedge_i : key (hget a ((i - 1) / 2)) ≤ key (hget a i) :=
          hA i hi0 hilen' hipos (by omega)
        rw [hiq] at hedge_i
        exact le_trans hedge_pp hedge_i
  | case2 a pos x hpos pp par hlt =>
    intro hlen hA hB hC
    rw [pySiftdown.eq_def]
    simp only [if_pos hpos]
    split
    case isTrue hcond => exact absurd hcond hlt
    case isFalse hcond =>
    have hppv : pp = (pos - 1) / 2 := rfl
    have hparv : par = hget a pp := rfl
    have hk : key par ≤ key x := keyLt_false hlt
    intro i hi0 hilen
    have hilen' : i < a.length := by simpa using hilen
    have get_pos : hget (a.set pos x) pos = x := hget_set_self a pos x hlen
    have get_ne : ∀ j, j ≠ pos → hget (a.set pos x) j = hget a j := by
      intro j hj
      exact hget_set_ne a pos j x (fun h => hj h.symm)
    by_cases hiq : (i - 1) / 2 = pos
    · have hipos : i ≠ pos := by omega
      rw [hiq, get_pos, get_ne i hipos]
      exact hB i hi0 hilen' hiq
    · by_cases hipos : i = pos
      · rw [hipos, get_pos, get_ne _ (by omega)]
        subst hipos
        rw [← hppv, ← hparv]
        exact hk
      · rw [get_ne _ hiq, get_ne _ hipos]
        exact hA i hi0 hilen' hipos hiq
  | case3 a pos x hpos =>
    intro hlen hA hB hC
    rw [pySiftdown.eq_def]
    rw [if_neg hpos]
    have hp0 : pos = 0 := by omega
    subst hp0
    intro i hi0 hilen
    have hilen' : i < a.length := by simpa using hilen
    have get_pos : hget (a.set 0 x) 0 = x := hget_set_self a 0 x hlen
    have get_ne : ∀ j, j ≠ 0 → hget (a.set 0 x) j = hget a j := by
      intro j hj
      exact hget_set_ne a 0 j x (fun h => hj h.symm)
    by_cases hiq : (i - 1) / 2 = 0
    · rw [hiq, get_pos, get_ne i (by omega)]
      exact hB i hi0 hilen' hiq
    · rw [get_ne _ hiq, get_ne _ (by omega)]
      exact hA i hi0 hilen' (by omega) hiq

/-- The child index selected by one iteration of the `_siftup` loop
(the right child when the left child is not smaller, else the left). -/
def siftChild [Inhabited α] (lt : α → α → Bool) (a : List α) (pos : Nat) : Nat :=
  if 2 * pos + 1 + 1 < a.length && !(lt (hget a (2 * pos + 1)) (hget a (2 * pos + 1 + 1))) then
    2 * pos + 1 + 1
  else
    2 * pos + 1

theorem pySiftupLoop_eq_rec [Inhabited α] (lt : α → α → Bool)
    (a : List α) (pos : Nat) (h : 2 * pos + 1 < a.length) :
    pySiftupLoop lt a pos
      = pySiftupLoop lt (a.set pos (hget a (siftChild lt a pos))) (siftChild lt a pos) := by
  rw [pySiftupLoop.eq_def]
  simp only [dif_pos h]
  rfl

theorem pySiftupLoop_eq_base [Inhabited α] (lt : α → α → Bool)
    (a : List α) (pos : Nat) (h : ¬ 2 * pos + 1 < a.length) :
    pySiftupLoop lt a pos = (a, pos) := by
  rw [pySiftupLoop.eq_def]
  simp only [dif_neg h]

theorem siftChild_bounds [Inhabited α] (lt : α → α → Bool)
    (a : List α) (pos : Nat) (h : 2 * pos + 1 < a.length) :
    2 * pos + 1 ≤ siftChild lt a pos ∧ siftChild lt a pos ≤ 2 * pos + 2 ∧
      siftChild lt a pos < a.length := by
  unfold siftChild
  split
  case isTrue hc =>
    simp only [Bool.and_eq_true, decide_eq_true_eq] at hc
    omega
  case isFalse hc =>
    omega

/-- The selected child is a minimal child of `pos`. -/
theorem siftChild_min [Inhabited α] (key : α → Nat)
    (a : List α) (pos : Nat) (h : 2 * pos + 1 < a.length) :
    ∀ i, 0 < i → i < a.length → (i - 1) / 2 = pos →
      key (hget a (siftChild (keyLt key) a pos)) ≤ key (hget a i) := by
  intro i hi0 hilen hiq
  have hichild : i = 2 * pos + 1 ∨ i = 2 * pos + 2 := by omega
  unfold siftChild
  split
  case isTrue hc =>
    simp only [Bool.and_eq_true, Bool.not_eq_true', decide_eq_true_eq] at hc
    have hle : key (hget a (2 * pos + 1 + 1)) ≤ key (hget a (2 * pos + 1)) :=
      keyLt_false (by simp [hc.2])
    rcases hichild with hi | hi <;> subst hi
    · simpa using hle
    · simp only [show 2 * pos + 1 + 1 = 2 * pos + 2 by omega] at hle ⊢
      exact le_refl _
  case isFalse hc =>
    simp only [Bool.and_eq_true, Bool.not_eq_true', decide_eq_true_eq,
      not_and, Bool.not_eq_false] at hc
    rcases hichild with hi | hi <;> subst hi
    · exact le_refl _
    · have hrlen : 2 * pos + 1 + 1 < a.length := by omega
      have := keyLt_true (hc hrlen)
      simp only [show 2 * pos + 1 + 1 = 2 * pos + 2 by omega] at this
      omega

/-- Invariant carried through the `_siftup` loop: the array is a heap
except on edges into the hole, and the hole's children dominate the
hole's parent; at exit the hole is a leaf. -/
theorem pySiftupLoop_spec [Inhabited α] (key : α → Nat) :
    ∀ (n : Nat) (a : List α) (pos : Nat), a.length - pos ≤ n →
    pos < a.length →
    (∀ i, 0 < i → i < a.length → (i - 1) / 2 ≠ pos →
      key (hget a ((i - 1) / 2)) ≤ key (hget a i)) →
    (∀ i, 0 < i → i < a.length → (i - 1) / 2 = pos → 0 < pos →
      key (hget a ((pos - 1) / 2)) ≤ key (hget a i)) →
    (pySiftupLoop (keyLt key) a pos).1.length = a.length ∧
    (pySiftupLoop (keyLt key) a pos).2 < a.length ∧
    a.length ≤ 2 * (pySiftupLoop (keyLt key) a pos).2 + 1 ∧
    (∀ i, 0 < i → i < a.length → (i - 1) / 2 ≠ (pySiftupLoop (keyLt key) a pos).2 →
      key (hget (pySiftupLoop (keyLt key) a pos).1 ((i - 1) / 2))
        ≤ key (hget (pySiftupLoop (keyLt key) a pos).1 i)) := by
  intro n
  induction n with
  | zero =>
    intro a pos hn hlen hA hB
    omega
  | succ n ihn =>
    intro a pos hn hlen hA hB
    by_cases h : 2 * pos + 1 < a.length
    · rw [pySiftupLoop_eq_rec (keyLt key) a pos h]
      have hc := siftChild_bounds (keyLt key) a pos h
      have hcmin := siftChild_min key a pos h
      set c := siftChild (keyLt key) a pos with hcdef
      have hcpos : pos < c := by omega
      have hcle : c ≤ 2 * pos + 2 := hc.2.1
      have hclen : c < a.length := hc.2.2
      have get_pos : hget (a.set pos (hget a c)) pos = hget a c :=
        hget_set_self a pos (hget a c) hlen
      have get_ne : ∀ j, j ≠ pos → hget (a.set pos (hget a c)) j = hget a j := by
        intro j hj
        exact hget_set_ne a pos j (hget a c) (fun hh => hj hh.symm)
      have hslen : (a.set pos (hget a c)).length = a.length := by simp
      have hA' : ∀ i, 0 < i → i < (a.set pos (hget a c)).length → (i - 1) / 2 ≠ c →
          key (hget (a.set pos (hget a c)) ((i - 1) / 2))
            ≤ key (hget (a.set pos (hget a c)) i) := by
        intro i hi0 hilen0 hic
        have hilen' : i < a.length := by omega
        by_cases hiq : (i - 1) / 2 = pos
        · have hipos : i ≠ pos := by omega
          rw [hiq, get_pos, get_ne i hipos]
          exact hcmin i hi0 hilen' hiq
        · by_cases hipos : i = pos
          · have hne : (pos - 1) / 2 ≠ pos := by omega
            have h0pos : 0 < pos := by omega
            rw [hipos, get_pos, get_ne _ hne]
            exact hB c (by omega) hclen (by omega) h0pos
          · rw [get_ne _ hiq, get_ne _ hipos]
            exact hA i hi0 hilen' hiq
      have hB' : ∀ i, 0 < i → i < (a.set pos (hget a c)).length → (i - 1) / 2 = c →
          0 < c →
          key (hget (a.set pos (hget a c)) ((c - 1) / 2))
            ≤ key (hget (a.set pos (hget a c)) i) := by
        intro i hi0 hilen0 hiq hc0
        have hilen' : i < a.length := by omega
        have hcq : (c - 1) / 2 = pos := by omega
        have hipos : i ≠ pos := by omega
        rw [hcq, get_pos, get_ne i hipos]
        have hedge := hA i hi0 hilen' (by omega)
        rw [hiq] at hedge
        exact hedge
      have := ihn (a.set pos (hget a c)) c (by omega) (by omega) hA' hB'
      simpa [hslen] using this
    · rw [pySiftupLoop_eq_base (keyLt key) a pos h]
      exact ⟨rfl, hlen, by omega, fun i hi0 hilen hiq => hA i hi0 hilen hiq⟩

/-- The `_siftup` loop permutes nothing but the hole: removing the
original hole value and the final hole value exposes equal multisets. -/
theorem pySiftupLoop_ms [Inhabited α] (lt : α → α → Bool) :
    ∀ (n : Nat) (a : List α) (pos : Nat), a.length - pos ≤ n →
    pos < a.length →
    (pySiftupLoop lt a pos).1.length = a.length ∧
    (pySiftupLoop lt a pos).2 < a.length ∧
    hget a pos ::ₘ ((pySiftupLoop lt a pos).1 : Multiset α)
      = hget (pySiftupLoop lt a pos).1 (pySiftupLoop lt a pos).2
          ::ₘ (a : Multiset α) := by
  intro n
  induction n with
  | zero =>
    intro a pos hn hlen
    omega
  | succ n ihn =>
    intro a pos hn hlen
    by_cases h : 2 * pos + 1 < a.length
    · rw [pySiftupLoop_eq_rec lt a pos h]
      have hc := siftChild_bounds lt a pos h
      set c := siftChild lt a pos with hcdef
      have hcpos : pos < c := by omega
      have hclen : c < a.length := hc.2.2
      have hslen : (a.set pos (hget a c)).length = a.length := by simp
      obtain ⟨ihlen, ihlt, ihx⟩ := ihn (a.set pos (hget a c)) c (by omega) (by omega)
      refine ⟨by omega, by omega, ?_⟩
      rw [hget_set_ne a pos c (hget a c) (by omega)] at ihx
      have hms := ms_set a pos (hget a c) hlen
      have key1 : hget a c ::ₘ (hget a pos ::ₘ
            ((pySiftupLoop lt (a.set pos (hget a c)) c).1 : Multiset α))
          = hget a c ::ₘ
            (hget (pySiftupLoop lt (a.set pos (hget a c)) c).1
              (pySiftupLoop lt (a.set pos (hget a c)) c).2 ::ₘ (a : Multiset α)) := by
        calc hget a c ::ₘ (hget a pos ::ₘ
              ((pySiftupLoop lt (a.set pos (hget a c)) c).1 : Multiset α))
            = hget a pos ::ₘ (hget a c ::ₘ
                ((pySiftupLoop lt (a.set pos (hget a c)) c).1 : Multiset α)) :=
              Multiset.cons_swap _ _ _
          _ = hget a pos ::ₘ
                (hget (pySiftupLoop lt (a.set pos (hget a c)) c).1
                  (pySiftupLoop lt (a.set pos (hget a c)) c).2 ::ₘ
                  ((a.set pos (hget a c) : List α) : Multiset α)) := by rw [ihx]
          _ = hget (pySiftupLoop lt (a.set pos (hget a c)) c).1
                (pySiftupLoop lt (a.set pos (hget a c)) c).2 ::ₘ
                (hget a pos ::ₘ ((a.set pos (hget a c) : List α) : Multiset α)) :=
              Multiset.cons_swap _ _ _
          _ = hget (pySiftupLoop lt (a.set pos (hget a c)) c).1
                (pySiftupLoop lt (a.set pos (hget a c)) c).2 ::ₘ
                (hget a c ::ₘ (a : Multiset α)) := by rw [hms]
          _ = hget a c ::ₘ
                (hget (pySiftupLoop lt (a.set pos (hget a c)) c).1
                  (pySiftupLoop lt (a.set pos (hget a c)) c).2 ::ₘ (a : Multiset α)) :=
              Multiset.cons_swap _ _ _
      exact (Multiset.cons_inj_right _).1 key1
    · rw [pySiftupLoop_eq_base lt a pos h]
      exact ⟨rfl, hlen, rfl⟩

theorem pySiftup_isHeap [Inhabited α] (key : α → Nat) (a : List α)
    (h0 : 0 < a.length)
    (hA : ∀ i, 0 < i → i < a.length → (i - 1) / 2 ≠ 0 →
      key (hget a ((i - 1) / 2)) ≤ key (hget a i)) :
    IsHeap key (pySiftup (keyLt key) a 0) := by
  unfold pySiftup
  have hspec := pySiftupLoop_spec key a.length a 0 (by omega) h0 hA
    (by intro i _ _ _ hcontra; omega)
  obtain ⟨hlen1, hlt1, hleaf, hA1⟩ := hspec
  have := pySiftdown_isHeap key (pySiftupLoop (keyLt key) a 0).1
    (pySiftupLoop (keyLt key) a 0).2 (hget a 0)
    (by omega)
    (by
      intro i hi0 hilen hine hiq
      exact hA1 i hi0 (by omega) hiq)
    (by
      intro i hi0 hilen hiq
      omega)
    (by
      intro i hi0 hilen hiq hpos0
      omega)
  exact this

theorem pySiftup_ms [Inhabited α] (lt : α → α → Bool) (a : List α)
    (h0 : 0 < a.length) :
    ((pySiftup lt a 0 : List α) : Multiset α) = (a : Multiset α) := by
  obtain ⟨hlen1, hlt1, hms⟩ := pySiftupLoop_ms lt a.length a 0 (by omega) h0
  have hsd := pySiftdown_ms lt 0 (pySiftupLoop lt a 0).1
    (pySiftupLoop lt a 0).2 (hget a 0) (by omega)
  rw [hms] at hsd
  show ((pySiftdown lt 0 (pySiftupLoop lt a 0).1
    (pySiftupLoop lt a 0).2 (hget a 0) : List α) : Multiset α) = (a : Multiset α)
  exact (Multiset.cons_inj_right _).1 hsd

/-- `heappush` preserves the heap invariant. -/
theorem pyHeappush_isHeap [Inhabited α] (key : α → Nat) (a : List α) (x : α)
    (h : IsHeap key a) : IsHeap key (pyHeappush (keyLt key) a x) := by
  unfold pyHeappush
  apply pySiftdown_isHeap key (a ++ [x]) a.length x (by simp)
  · intro i hi0 hilen hine hiq
    have hilen' : i < a.length := by
      simp at hilen
      omega
    have hq : (i - 1) / 2 < a.length := by omega
    rw [hget_append_lt a [x] i hilen', hget_append_lt a [x] _ hq]
    exact h i hi0 hilen'
  · intro i hi0 hilen hiq
    simp at hilen
    omega
  · intro i hi0 hilen hiq hpos
    simp at hilen
    omega

/-- `heappush` adds exactly the pushed element. -/
theorem pyHeappush_ms [Inhabited α] (lt : α → α → Bool) (a : List α) (x : α) :
    ((pyHeappush lt a x : List α) : Multiset α) = x ::ₘ (a : Multiset α) := by
  unfold pyHeappush
  have hsd := pySiftdown_ms lt 0 (a ++ [x]) a.length x (by simp)
  rw [hget_append_right a x] at hsd
  have hx := (Multiset.cons_inj_right x).1 hsd
  rw [hx]
  have : ((a ++ [x] : List α) : Multiset α) = (a : Multiset α) + ([x] : List α) := by
    exact (Multiset.coe_add a [x]).symm
  rw [this]
  have : ((([x] : List α)) : Multiset α) = ({x} : Multiset α) := rfl
  rw [this]
  rw [add_comm ((a : List α) : Multiset α) ({x} : Multiset α), Multiset.singleton_add]

/-- `heappop` preserves the heap invariant on the remaining heap. -/
theorem pyHeappop_isHeap [Inhabited α] (key : α → Nat) (a : List α)
    (x : α) (rest : List α) (h : IsHeap key a)
    (he : pyHeappop (keyLt key) a = some (x, rest)) : IsHeap key rest := by
  unfold pyHeappop at he
  by_cases hemp : a.isEmpty
  · simp [hemp] at he
  · simp only [hemp, Bool.false_eq_true, if_false] at he
    by_cases hone : a.dropLast.isEmpty
    · simp only [hone, if_true] at he
      intro i hi0 hilen
      have hre : rest = a.dropLast := by
        cases he
        rfl
      rw [hre] at hilen
      rw [List.isEmpty_iff] at hone
      rw [hone] at hilen
      simp at hilen
    · simp only [hone, Bool.false_eq_true, if_false] at he
      have hrest : rest = pySiftup (keyLt key)
          (a.dropLast.set 0 (hget a (a.length - 1))) 0 := by
        cases he
        rfl
      have hdl : 0 < a.dropLast.length := by
        rw [List.isEmpty_iff] at hone
        cases hd : a.dropLast with
        | nil => exact absurd hd hone
        | cons y ys => simp [hd]
      have halen : 2 ≤ a.length := by
        have := a.length_dropLast
        omega
      rw [hrest]
      apply pySiftup_isHeap key _ (by simpa using hdl)
      intro i hi0 hilen hiq
      have hilen0 : i < a.dropLast.length := by simpa using hilen
      have hq : (i - 1) / 2 < a.dropLast.length := by omega
      rw [hget_set_ne _ 0 i _ (by omega), hget_set_ne _ 0 _ _ (by omega)]
      have hild : i < a.length - 1 := by
        have := a.length_dropLast
        omega
      rw [hget_dropLast a i (by omega), hget_dropLast a _ (by omega)]
      exact h i hi0 (by omega)

/-- `heappop` removes exactly the returned element. -/
theorem pyHeappop_ms [Inhabited α] (lt : α → α → Bool) (a : List α)
    (x : α) (rest : List α)
    (he : pyHeappop lt a = some (x, rest)) :
    x ::ₘ ((rest : List α) : Multiset α) = (a : Multiset α) := by
  unfold pyHeappop at he
  by_cases hemp : a.isEmpty
  · simp [hemp] at he
  · simp only [hemp, Bool.false_eq_true, if_false] at he
    have hane : a ≠ [] := by
      rw [List.isEmpty_iff] at hemp
      exact hemp
    have hlast : a.dropLast ++ [hget a (a.length - 1)] = a := by
      have hg : hget a (a.length - 1) = a.getLast hane := by
        rw [List.getLast_eq_getElem]
        have hlt : a.length - 1 < a.length := by
          cases a with
          | nil => exact absurd rfl hane
          | cons y ys => simp
        simp [hget, List.getD_eq_getElem?_getD, List.getElem?_eq_getElem hlt]
      rw [hg]
      exact List.dropLast_append_getLast hane
    by_cases hone : a.dropLast.isEmpty
    · simp only [hone, if_true] at he
      cases he
      rw [List.isEmpty_iff] at hone
      conv_rhs => rw [← hlast]
      rw [hone]
      rfl
    · simp only [hone, Bool.false_eq_true, if_false] at he
      cases he
      have hdl : 0 < a.dropLast.length := by
        rw [List.isEmpty_iff] at hone
        cases hd : a.dropLast with
        | nil => exact absurd hd hone
        | cons y ys => simp [hd]
      have hsu := pySiftup_ms lt (a.dropLast.set 0 (hget a (a.length - 1)))
        (by simpa using hdl)
      rw [hsu]
      have hms := ms_set a.dropLast 0 (hget a (a.length - 1)) hdl
      rw [hms]
      conv_rhs => rw [← hlast]
      have : ((a.dropLast ++ [hget a (a.length - 1)] : List α) : Multiset α)
          = (a.dropLast : Multiset α) + ([hget a (a.length - 1)] : List α) :=
        (Multiset.coe_add _ _).symm
      rw [this]
      rw [show ((([hget a (a.length - 1)] : List α)) : Multiset α)
          = ({hget a (a.length - 1)} : Multiset α) from rfl]
      rw [add_comm ((a.dropLast : List α) : Multiset α)
        ({hget a (a.length - 1)} : Multiset α), Multiset.singleton_add]

/-- In a heap the root is a minimum. -/
theorem isHeap_root_min [Inhabited α] (key : α → Nat) (a : List α)
    (h : IsHeap key a) : ∀ i, i < a.length → key (hget a 0) ≤ key (hget a i) := by
  intro i
  induction i using Nat.strong_induction_on with
  | _ i ih =>
    intro hi
    cases Nat.eq_zero_or_pos i with
    | inl h0 => rw [h0]
    | inr h0 =>
      have hp := ih ((i - 1) / 2) (by omega) (by omega)
      exact le_trans hp (h i h0 hi)

/-- `heappop` on a heap returns an element whose key is minimal among
all entries of the heap. -/
theorem pyHeappop_min [Inhabited α] (key : α → Nat) (a : List α)
    (x : α) (rest : List α) (h : IsHeap key a)
    (he : pyHeappop (keyLt key) a = some (x, rest)) :
    ∀ y ∈ a, key x ≤ key y := by
  have hxroot : x = hget a 0 := by
    unfold pyHeappop at he
    by_cases hemp : a.isEmpty
    · simp [hemp] at he
    · simp only [hemp, Bool.false_eq_true, if_false] at he
      by_cases hone : a.dropLast.isEmpty
      · simp only [hone, if_true] at he
        cases he
        have h1 : a.length = 1 := by
          have := a.length_dropLast
          rw [List.isEmpty_iff] at hone
          have : a.dropLast.length = 0 := by rw [hone]; rfl
          rw [List.isEmpty_iff] at hemp
          have h0 : 0 < a.length := List.length_pos.2 hemp
          omega
        rw [h1]
      · simp only [hone, Bool.false_eq_true, if_false] at he
        cases he
        have hdl : 0 < a.dropLast.length := by
          rw [List.isEmpty_iff] at hone
          cases hd : a.dropLast with
          | nil => exact absurd hd hone
          | cons y ys => simp [hd]
        have halen : 2 ≤ a.length := by
          have := a.length_dropLast
          omega
        exact hget_dropLast a 0 (by omega)
  intro y hy
  obtain ⟨i, hi, hiy⟩ := exists_hget_of_mem hy
  rw [hxroot, ← hiy]
  exact isHeap_root_min key a h i hi

/-- `heappop` shrinks the heap by one entry. -/
theorem pyHeappop_length [Inhabited α] (lt : α → α → Bool) (a : List α)
    (x : α) (rest : List α) (he : pyHeappop lt a = some (x, rest)) :
    rest.length + 1 = a.length := by
  have hms := pyHeappop_ms lt a x rest he
  have hcard := congrArg Multiset.card hms
  simpa using hcard

/-! ## `crawl_queue.py`: the crawl frontier

The queue operations are `async` only to take the instance's mutex
(`self._lock`); under that mutual exclusion each operation is a pure
state transformation, embedded here as a function on `CrawlQueue`.
Python sets and the `_failed` dict are embedded as duplicate-free
lists; only membership, length and lookup are consumed by the code. -/

/-- `CrawlPriority` (crawl_queue.py): URL crawl priority levels. -/
inductive CrawlPriority
  | critical
  | high
  | medium
  | low
  | deferred
deriving DecidableEq

/-- The `.value` of a `CrawlPriority` member. -/
def CrawlPriority.val : CrawlPriority → Nat
  | .critical => 0
  | .high => 1
  | .medium => 2
  | .low => 3
  | .deferred => 4

/-- `CrawlItem` (crawl_queue.py).  The dataclass fields `added_at` (a
wall-clock timestamp, `compare=False`, never read by the queue logic)
and `metadata` (an opaque pass-through mapping, `compare=False`) are
omitted from the embedding; neither influences any queue behaviour. -/
structure CrawlItem where
  priority : Nat
  url : String
  depth : Nat
  referrer : Option String
  retries : Nat
deriving DecidableEq, Inhabited

/-- `CrawlItem.__lt__` generated by `@dataclass(order=True)`: only the
`priority` field has `compare=True`, so items compare by priority. -/
abbrev itemLt : CrawlItem → CrawlItem → Bool :=
  keyLt CrawlItem.priority

/-- Python `set.add`. -/
def setAdd (s : List String) (u : String) : List String :=
  if u ∈ s then s else u :: s

/-- Python `set.discard`. -/
def setDiscard (s : List String) (u : String) : List String :=
  s.filter (fun v => decide (v ≠ u))

/-- Python `d[k] = v` on the `_failed` dict (only membership and
lookup of the dict are consumed anywhere in the services). -/
def dictSet (d : List (String × String)) (k v : String) : List (String × String) :=
  (k, v) :: d.filter (fun p => decide (p.1 ≠ k))

/-- The state owned by a `CrawlQueue` instance. -/
structure CrawlQueue where
  queue : List CrawlItem
  seen : List String
  in_progress : List String
  completed : List String
  failed : List (String × String)
  max_depth : Nat
  max_retries : Nat
  max_urls : Nat
deriving DecidableEq

/-- `CrawlQueue.__init__(max_depth, max_retries, max_urls)`. -/
def CrawlQueue.init (max_depth max_retries max_urls : Nat) : CrawlQueue :=
  ⟨[], [], [], [], [], max_depth, max_retries, max_urls⟩

/-- `CrawlQueue.add`: returns the admission flag and the new state. -/
def CrawlQueue.add (q : CrawlQueue) (url : String)
    (priority : CrawlPriority := CrawlPriority.medium) (depth : Nat := 0)
    (referrer : Option String := none) : Bool × CrawlQueue :=
  if q.seen.length ≥ q.max_urls then
    (false, q)
  else if depth > q.max_depth then
    (false, q)
  else if url ∈ q.seen then
    (false, q)
  else
    let item : CrawlItem :=
      { priority := priority.val, url := url, depth := depth
        referrer := referrer, retries := 0 }
    (true,
      { q with
          seen := setAdd q.seen url
          queue := pyHeappush itemLt q.queue item })

/-- The `while self._queue:` loop of `CrawlQueue.get`, with the fuel
argument bounding the iteration count (each iteration pops one entry,
so the queue length is enough fuel). -/
def CrawlQueue.getAux (completed in_progress : List String) :
    Nat → List CrawlItem → Option (CrawlItem × List CrawlItem)
  | 0, _ => none
  | fuel + 1, heap =>
    match pyHeappop itemLt heap with
    | none => none
    | some (item, rest) =>
      if item.url ∈ completed ∨ item.url ∈ in_progress then
        CrawlQueue.getAux completed in_progress fuel rest
      else
        some (item, rest)

/-- `CrawlQueue.get`: pop entries until one is neither completed nor
in progress; mark it in-progress and return it; `none` when drained. -/
def CrawlQueue.get (q : CrawlQueue) : Option (CrawlItem × CrawlQueue) :=
  match CrawlQueue.getAux q.completed q.in_progress q.queue.length q.queue with
  | none => none
  | some (item, rest) =>
    some (item,
      { q with
          queue := rest
          in_progress := setAdd q.in_progress item.url })

/-- `CrawlQueue.complete(url)`. -/
def CrawlQueue.complete (q : CrawlQueue) (url : String) : CrawlQueue :=
  { q with
      in_progress := setDiscard q.in_progress url
      completed := setAdd q.completed url }

/-- `CrawlQueue.fail(url, error, item)`. -/
def CrawlQueue.fail (q : CrawlQueue) (url error : String)
    (item : Option CrawlItem) : CrawlQueue :=
  match item with
  | some it =>
    if it.retries < q.max_retries then
      { q with
          in_progress := setDiscard q.in_progress url
          queue := pyHeappush itemLt q.queue
            { priority := min (it.priority + 1) CrawlPriority.deferred.val
              url := url, depth := it.depth, referrer := it.referrer
              retries := it.retries + 1 } }
    else
      { q with
          in_progress := setDiscard q.in_progress url
          failed := dictSet q.failed url error }
  | none =>
    { q with
        in_progress := setDiscard q.in_progress url
        failed := dictSet q.failed url error }

/-- `CrawlQueue.release(url)`. -/
def CrawlQueue.release (q : CrawlQueue) (url : String) : CrawlQueue :=
  { q with in_progress := setDiscard q.in_progress url }

/-- `CrawlQueue.clear()`. -/
def CrawlQueue.clear (q : CrawlQueue) : CrawlQueue :=
  { q with queue := [], seen := [], in_progress := [], completed := [], failed := [] }

/-- States reachable from a fresh queue through the operation
contract of `CrawlQueue`. -/
inductive Reachable : CrawlQueue → Prop
  | init (md mr mu : Nat) : Reachable (CrawlQueue.init md mr mu)
  | add (q : CrawlQueue) (url : String) (priority : CrawlPriority)
      (depth : Nat) (referrer : Option String) :
      Reachable q → Reachable (q.add url priority depth referrer).2
  | get (q : CrawlQueue) (it : CrawlItem) (q' : CrawlQueue) :
      Reachable q → q.get = some (it, q') → Reachable q'
  | complete (q : CrawlQueue) (url : String) :
      Reachable q → Reachable (q.complete url)
  | fail (q : CrawlQueue) (url error : String) (item : Option CrawlItem) :
      Reachable q → Reachable (q.fail url error item)
  | release (q : CrawlQueue) (url : String) :
      Reachable q → Reachable (q.release url)
  | clear (q : CrawlQueue) : Reachable q → Reachable q.clear

theorem getAux_isHeap (comp prog : List String) :
    ∀ (fuel : Nat) (heap : List CrawlItem) (item : CrawlItem) (rest : List CrawlItem),
    IsHeap CrawlItem.priority heap →
    CrawlQueue.getAux comp prog fuel heap = some (item, rest) →
    IsHeap CrawlItem.priority rest := by
  intro fuel
  induction fuel with
  | zero =>
    intro heap item rest hh he
    simp [CrawlQueue.getAux] at he
  | succ n ih =>
    intro heap item rest hh he
    simp only [CrawlQueue.getAux] at he
    cases hp : pyHeappop itemLt heap with
    | none =>
      rw [hp] at he
      simp at he
    | some pr =>
      obtain ⟨it0, r0⟩ := pr
      rw [hp] at he
      simp only at he
      by_cases hdead : it0.url ∈ comp ∨ it0.url ∈ prog
      · rw [if_pos hdead] at he
        exact ih r0 item rest (pyHeappop_isHeap CrawlItem.priority heap it0 r0 hh hp) he
      · rw [if_neg hdead] at he
        cases he
        exact pyHeappop_isHeap CrawlItem.priority heap item rest hh hp

theorem getAux_min (comp prog : List String) :
    ∀ (fuel : Nat) (heap : List CrawlItem) (item : CrawlItem) (rest : List CrawlItem),
    IsHeap CrawlItem.priority heap →
    CrawlQueue.getAux comp prog fuel heap = some (item, rest) →
    ∀ x ∈ heap, x.url ∉ comp → x.url ∉ prog → item.priority ≤ x.priority := by
  intro fuel
  induction fuel with
  | zero =>
    intro heap item rest hh he
    simp [CrawlQueue.getAux] at he
  | succ n ih =>
    intro heap item rest hh he
    simp only [CrawlQueue.getAux] at he
    cases hp : pyHeappop itemLt heap with
    | none =>
      rw [hp] at he
      simp at he
    | some pr =>
      obtain ⟨it0, r0⟩ := pr
      rw [hp] at he
      simp only at he
      by_cases hdead : it0.url ∈ comp ∨ it0.url ∈ prog
      · rw [if_pos hdead] at he
        intro x hx hxc hxp
        have hxne : x ≠ it0 := by
          intro hcontra
          rw [hcontra] at hxc hxp
          rcases hdead with hd | hd
          · exact hxc hd
          · exact hxp hd
        have hxrest : x ∈ r0 := by
          have hms := pyHeappop_ms itemLt heap it0 r0 hp
          have hxms : x ∈ (heap : Multiset CrawlItem) := by
            simpa using hx
          rw [← hms] at hxms
          rcases Multiset.mem_cons.1 hxms with hcase | hcase
          · exact absurd hcase hxne
          · simpa using hcase
        exact ih r0 item rest
          (pyHeappop_isHeap CrawlItem.priority heap it0 r0 hh hp) he x hxrest hxc hxp
      · rw [if_neg hdead] at he
        cases he
        intro x hx hxc hxp
        exact pyHeappop_min CrawlItem.priority heap item rest hh hp x hx

theorem add_queue_cases (q : CrawlQueue) (url : String) (p : CrawlPriority)
    (d : Nat) (r : Option String) :
    (q.add url p d r).2.queue = q.queue ∨
    (q.add url p d r).2.queue = pyHeappush itemLt q.queue
      { priority := p.val, url := url, depth := d, referrer := r, retries := 0 } := by
  unfold CrawlQueue.add
  split
  · exact Or.inl rfl
  · split
    · exact Or.inl rfl
    · split
      · exact Or.inl rfl
      · exact Or.inr rfl

theorem fail_queue_cases (q : CrawlQueue) (url error : String)
    (item : Option CrawlItem) :
    (q.fail url error item).queue = q.queue ∨
    ∃ it : CrawlItem, (q.fail url error item).queue = pyHeappush itemLt q.queue it := by
  cases item with
  | none => exact Or.inl rfl
  | some it =>
    by_cases hr : it.retries < q.max_retries
    · exact Or.inr ⟨CrawlItem.mk (min (it.priority + 1) CrawlPriority.deferred.val)
        url it.depth it.referrer (it.retries + 1), by simp [CrawlQueue.fail, hr]⟩
    · left
      simp [CrawlQueue.fail, hr]

/-- Every state reachable through the `CrawlQueue` operations keeps
the heap invariant on its pending-item array. -/
theorem reachable_isHeap (q : CrawlQueue) (h : Reachable q) :
    IsHeap CrawlItem.priority q.queue := by
  induction h with
  | init md mr mu =>
    intro i hi0 hilen
    simp [CrawlQueue.init] at hilen
  | add q url priority depth referrer _ ih =>
    rcases add_queue_cases q url priority depth referrer with hc | hc
    · rw [hc]; exact ih
    · rw [hc]
      exact pyHeappush_isHeap CrawlItem.priority q.queue _ ih
  | get q it q' _ hget ih =>
    unfold CrawlQueue.get at hget
    cases hg : CrawlQueue.getAux q.completed q.in_progress q.queue.length q.queue with
    | none =>
      rw [hg] at hget
      simp at hget
    | some pr =>
      obtain ⟨item, rest⟩ := pr
      rw [hg] at hget
      simp only at hget
      cases hget
      exact getAux_isHeap q.completed q.in_progress q.queue.length q.queue _ _ ih hg
  | complete q url _ ih => exact ih
  | fail q url error item _ ih =>
    rcases fail_queue_cases q url error item with hc | ⟨it0, hc⟩
    · rw [hc]; exact ih
    · rw [hc]
      exact pyHeappush_isHeap CrawlItem.priority q.queue it0 ih
  | release q url _ ih => exact ih
  | clear q _ ih =>
    intro i hi0 hilen
    simp [CrawlQueue.clear] at hilen

/-- **C1** (amended).  In every reachable queue state, `get()` returns
an item whose priority value is minimal among the pending items that
are still eligible (not completed and not in progress): across tiers,
dispatch is strictly by tier urgency.  The further FIFO-within-a-tier
part of the original claim is false, see the counterexample. -/
theorem c1_get_minimal_priority_among_live (q : CrawlQueue)
    (hreach : Reachable q) (it : CrawlItem) (q' : CrawlQueue)
    (hget : q.get = some (it, q')) :
    ∀ x ∈ q.queue, x.url ∉ q.completed → x.url ∉ q.in_progress →
      it.priority ≤ x.priority := by
  have hh := reachable_isHeap q hreach
  unfold CrawlQueue.get at hget
  cases hg : CrawlQueue.getAux q.completed q.in_progress q.queue.length q.queue with
  | none =>
    rw [hg] at hget
    simp at hget
  | some pr =>
    obtain ⟨item, rest⟩ := pr
    rw [hg] at hget
    simp only at hget
    cases hget
    exact getAux_min q.completed q.in_progress q.queue.length q.queue _ _ hh hg

/-- The queue of the FIFO counterexample: A at HIGH, then B, C, D
admitted in this order at MEDIUM. -/
def fifoCexQueue : CrawlQueue :=
  (((((CrawlQueue.init 5 3 1000).add "A" CrawlPriority.high 0 none).2.add
      "B" CrawlPriority.medium 0 none).2.add
      "C" CrawlPriority.medium 0 none).2.add
      "D" CrawlPriority.medium 0 none).2

unseal pySiftdown pySiftupLoop in
/-- **C1** (counterexample).  B and C are admitted at the same tier in
the order B then C, yet the second `get()` returns C, not B: `heapq`
with priority-only comparison is not FIFO within a tier. -/
theorem c1_fifo_within_tier_counterexample :
    (Option.map (fun p => p.1.url) fifoCexQueue.get = some "A") ∧
    (Option.map (fun p => p.1.url)
      (Option.bind fifoCexQueue.get (fun p => p.2.get)) = some "C") := by
  constructor
  · decide
  · decide

/-- A two-item reachable queue for the C1 witness: "A" at MEDIUM then
"B" at LOW. -/
def c1WitnessQueue : CrawlQueue :=
  (((CrawlQueue.init 5 3 1000).add "A" CrawlPriority.medium 0 none).2.add
      "B" CrawlPriority.low 0 none).2

unseal pySiftdown pySiftupLoop in
theorem c1_get_minimal_priority_among_live_witness :
    (⟨3, "B", 0, none, 0⟩ : CrawlItem) ∈ c1WitnessQueue.queue ∧
    ((⟨2, "A", 0, none, 0⟩ : CrawlItem).priority
      ≤ (⟨3, "B", 0, none, 0⟩ : CrawlItem).priority) := by
  refine ⟨by decide, ?_⟩
  exact c1_get_minimal_priority_among_live c1WitnessQueue
    (Reachable.add _ "B" CrawlPriority.low 0 none
      (Reachable.add _ "A" CrawlPriority.medium 0 none
        (Reachable.init 5 3 1000)))
    ⟨2, "A", 0, none, 0⟩
    { c1WitnessQueue with
        queue := [⟨3, "B", 0, none, 0⟩]
        in_progress := ["A"] }
    (by decide)
    ⟨3, "B", 0, none, 0⟩ (by decide) (by decide) (by decide)

/-! ### Set-model lemmas -/

theorem setAdd_mem (s : List String) (u : String) : u ∈ setAdd s u := by
  unfold setAdd
  split
  · assumption
  · exact List.mem_cons_self u s

theorem setAdd_mem_mono (s : List String) (u v : String) (h : v ∈ s) :
    v ∈ setAdd s u := by
  unfold setAdd
  split
  · exact h
  · exact List.mem_cons_of_mem u h

theorem setAdd_idem (s : List String) (u : String) :
    setAdd (setAdd s u) u = setAdd s u := by
  unfold setAdd
  split
  case isTrue h => simp [h]
  case isFalse h => simp

theorem setDiscard_not_mem (s : List String) (u : String) :
    u ∉ setDiscard s u := by
  simp [setDiscard]

theorem setDiscard_of_not_mem (s : List String) (u : String) (h : u ∉ s) :
    setDiscard s u = s := by
  unfold setDiscard
  apply List.filter_eq_self.2
  intro x hx
  simp only [decide_eq_true_eq]
  intro hcontra
  rw [hcontra] at hx
  exact h hx

theorem setDiscard_idem (s : List String) (u : String) :
    setDiscard (setDiscard s u) u = setDiscard s u :=
  setDiscard_of_not_mem _ u (setDiscard_not_mem s u)

/-- **C2**.  `fail(url, error, item)` on an item with retries left
re-queues exactly one new entry carrying the same URL, `retries + 1`,
and a priority demoted one step with saturation at DEFERRED, leaving
`failed` untouched; on an exhausted item it records the error in
`failed` and pushes nothing; in both cases the URL leaves
`in_progress`. -/
theorem c2_fail_retry_and_exhaustion (q : CrawlQueue) (url error : String)
    (it : CrawlItem) (hq : ∀ x ∈ q.queue, x.url ≠ url) :
    (it.retries < q.max_retries →
      ((q.fail url error (some it)).queue : Multiset CrawlItem)
        = CrawlItem.mk
            (if it.priority < CrawlPriority.deferred.val then it.priority + 1
             else CrawlPriority.deferred.val)
            url it.depth it.referrer (it.retries + 1)
          ::ₘ (q.queue : Multiset CrawlItem) ∧
      (q.fail url error (some it)).failed = q.failed ∧
      url ∉ (q.fail url error (some it)).in_progress) ∧
    (q.max_retries ≤ it.retries →
      ((url, error) ∈ (q.fail url error (some it)).failed ∧
       (∀ x ∈ (q.fail url error (some it)).queue, x.url ≠ url) ∧
       url ∉ (q.fail url error (some it)).in_progress)) := by
  constructor
  · intro hr
    have hmin : min (it.priority + 1) CrawlPriority.deferred.val
        = if it.priority < CrawlPriority.deferred.val then it.priority + 1
          else CrawlPriority.deferred.val := by
      simp only [CrawlPriority.val]
      split
      · omega
      · omega
    refine ⟨?_, ?_, ?_⟩
    · simp only [CrawlQueue.fail, if_pos hr]
      rw [pyHeappush_ms]
      rw [hmin]
    · simp [CrawlQueue.fail, if_pos hr]
    · simp only [CrawlQueue.fail, if_pos hr]
      exact setDiscard_not_mem q.in_progress url
  · intro hr
    have hr' : ¬ it.retries < q.max_retries := by omega
    refine ⟨?_, ?_, ?_⟩
    · simp only [CrawlQueue.fail, if_neg hr']
      exact List.mem_cons_self _ _
    · simp only [CrawlQueue.fail, if_neg hr']
      exact hq
    · simp only [CrawlQueue.fail, if_neg hr']
      exact setDiscard_not_mem q.in_progress url

unseal pySiftdown pySiftupLoop in
theorem c2_fail_retry_and_exhaustion_witness :
    ((((CrawlQueue.init 5 3 1000).fail "A" "boom"
        (some ⟨4, "A", 0, none, 0⟩)).queue : List CrawlItem) : Multiset CrawlItem)
      = CrawlItem.mk
          (if (⟨4, "A", 0, none, 0⟩ : CrawlItem).priority < CrawlPriority.deferred.val
           then (⟨4, "A", 0, none, 0⟩ : CrawlItem).priority + 1
           else CrawlPriority.deferred.val)
          "A" (⟨4, "A", 0, none, 0⟩ : CrawlItem).depth
          (⟨4, "A", 0, none, 0⟩ : CrawlItem).referrer
          ((⟨4, "A", 0, none, 0⟩ : CrawlItem).retries + 1)
        ::ₘ (((CrawlQueue.init 5 3 1000).queue : List CrawlItem) : Multiset CrawlItem) ∧
    ((CrawlQueue.init 5 3 1000).fail "A" "boom"
        (some ⟨4, "A", 0, none, 0⟩)).failed = (CrawlQueue.init 5 3 1000).failed ∧
    "A" ∉ ((CrawlQueue.init 5 3 1000).fail "A" "boom"
        (some ⟨4, "A", 0, none, 0⟩)).in_progress :=
  (c2_fail_retry_and_exhaustion (CrawlQueue.init 5 3 1000) "A" "boom"
    ⟨4, "A", 0, none, 0⟩ (by decide)).1 (by decide)

/-! ### Non-`clear` steps, for the dedup part of the `add` contract -/

/-- One `CrawlQueue` operation other than `clear()`. -/
inductive StepNC : CrawlQueue → CrawlQueue → Prop
  | add (q : CrawlQueue) (url : String) (p : CrawlPriority) (d : Nat)
      (r : Option String) : StepNC q (q.add url p d r).2
  | get (q : CrawlQueue) (it : CrawlItem) (q' : CrawlQueue) :
      q.get = some (it, q') → StepNC q q'
  | complete (q : CrawlQueue) (url : String) : StepNC q (q.complete url)
  | fail (q : CrawlQueue) (url error : String) (item : Option CrawlItem) :
      StepNC q (q.fail url error item)
  | release (q : CrawlQueue) (url : String) : StepNC q (q.release url)

/-- Finitely many non-`clear` operations. -/
inductive StepsNC : CrawlQueue → CrawlQueue → Prop
  | refl (q : CrawlQueue) : StepsNC q q
  | tail (q1 q2 q3 : CrawlQueue) : StepsNC q1 q2 → StepNC q2 q3 → StepsNC q1 q3

theorem add_seen_cases (q : CrawlQueue) (url : String) (p : CrawlPriority)
    (d : Nat) (r : Option String) :
    (q.add url p d r).2.seen = q.seen ∨
    (q.add url p d r).2.seen = setAdd q.seen url := by
  unfold CrawlQueue.add
  split
  · exact Or.inl rfl
  · split
    · exact Or.inl rfl
    · split
      · exact Or.inl rfl
      · exact Or.inr rfl

theorem get_frame (q : CrawlQueue) (it : CrawlItem) (q' : CrawlQueue)
    (h : q.get = some (it, q')) :
    q'.seen = q.seen ∧ q'.completed = q.completed ∧ q'.failed = q.failed := by
  unfold CrawlQueue.get at h
  cases hg : CrawlQueue.getAux q.completed q.in_progress q.queue.length q.queue with
  | none =>
    rw [hg] at h
    simp at h
  | some pr =>
    rw [hg] at h
    simp only at h
    cases h
    exact ⟨rfl, rfl, rfl⟩

theorem fail_seen (q : CrawlQueue) (url error : String) (item : Option CrawlItem) :
    (q.fail url error item).seen = q.seen := by
  cases item with
  | none => rfl
  | some it =>
    by_cases hr : it.retries < q.max_retries
    · simp [CrawlQueue.fail, hr]
    · simp [CrawlQueue.fail, hr]

theorem stepNC_seen_mono (q q' : CrawlQueue) (h : StepNC q q') :
    ∀ u ∈ q.seen, u ∈ q'.seen := by
  intro u hu
  cases h with
  | add url p d r =>
    rcases add_seen_cases q url p d r with hc | hc
    · rw [hc]; exact hu
    · rw [hc]; exact setAdd_mem_mono q.seen url u hu
  | get it q2 hg =>
    rw [(get_frame q it q' hg).1]
    exact hu
  | complete url => exact hu
  | fail url error item =>
    rw [fail_seen q url error item]
    exact hu
  | release url => exact hu

theorem stepsNC_seen_mono (q q' : CrawlQueue) (h : StepsNC q q') :
    ∀ u ∈ q.seen, u ∈ q'.seen := by
  induction h with
  | refl => exact fun u hu => hu
  | tail q2 q3 hsteps hstep ih =>
    exact fun u hu => stepNC_seen_mono q2 q3 hstep u (ih u hu)

/-- **C3**.  `add` rejects exactly on capacity, depth or dedup, with no
state change on rejection; on admission it pushes the new item, marks
the URL seen and touches nothing else; and once an `add(u)` has
succeeded, `add(u)` fails after any sequence of further non-`clear`
operations, whatever tier and depth are passed. -/
theorem c3_add_admission (q : CrawlQueue) (url : String) (p : CrawlPriority)
    (d : Nat) (r : Option String) :
    ((q.add url p d r).1 = false ↔
      (q.max_urls ≤ q.seen.length ∨ q.max_depth < d ∨ url ∈ q.seen)) ∧
    ((q.add url p d r).1 = false → (q.add url p d r).2 = q) ∧
    ((q.add url p d r).1 = true →
      ((q.add url p d r).2.queue : Multiset CrawlItem)
        = CrawlItem.mk p.val url d r 0 ::ₘ (q.queue : Multiset CrawlItem) ∧
      (q.add url p d r).2.seen = url :: q.seen ∧
      (q.add url p d r).2.in_progress = q.in_progress ∧
      (q.add url p d r).2.completed = q.completed ∧
      (q.add url p d r).2.failed = q.failed) ∧
    (∀ q' : CrawlQueue, StepsNC (q.add url p d r).2 q' →
      (q.add url p d r).1 = true →
      ∀ p2 : CrawlPriority, ∀ d2 : Nat, ∀ r2 : Option String,
        (q'.add url p2 d2 r2).1 = false) := by
  by_cases h1 : q.seen.length ≥ q.max_urls
  · refine ⟨by
      simp only [CrawlQueue.add, if_pos h1]
      exact iff_of_true trivial (Or.inl h1), ?_, ?_, ?_⟩
    · intro _
      simp [CrawlQueue.add, h1]
    · intro htrue
      simp [CrawlQueue.add, h1] at htrue
    · intro q' hsteps htrue
      simp [CrawlQueue.add, h1] at htrue
  · by_cases h2 : d > q.max_depth
    · refine ⟨by
        simp only [CrawlQueue.add, if_neg h1, if_pos h2]
        exact iff_of_true trivial (Or.inr (Or.inl h2)), ?_, ?_, ?_⟩
      · intro _
        simp [CrawlQueue.add, h1, h2]
      · intro htrue
        simp [CrawlQueue.add, h1, h2] at htrue
      · intro q' hsteps htrue
        simp [CrawlQueue.add, h1, h2] at htrue
    · by_cases h3 : url ∈ q.seen
      · refine ⟨by
          simp only [CrawlQueue.add, if_neg h1, if_neg h2, if_pos h3]
          exact iff_of_true trivial (Or.inr (Or.inr h3)), ?_, ?_, ?_⟩
        · intro _
          simp [CrawlQueue.add, h1, h2, h3]
        · intro htrue
          simp [CrawlQueue.add, h1, h2, h3] at htrue
        · intro q' hsteps htrue
          simp [CrawlQueue.add, h1, h2, h3] at htrue
      · have hseen : (q.add url p d r).2.seen = url :: q.seen := by
          simp [CrawlQueue.add, h1, h2, h3, setAdd]
        refine ⟨by
          simp only [CrawlQueue.add, if_neg h1, if_neg h2, if_neg h3]
          refine iff_of_false (by simp) ?_
          rintro (hc | hc | hc)
          · exact h1 hc
          · exact h2 hc
          · exact h3 hc, ?_, ?_, ?_⟩
        · intro hfalse
          simp [CrawlQueue.add, h1, h2, h3] at hfalse
        · intro _
          refine ⟨?_, hseen, ?_, ?_, ?_⟩
          · simp only [CrawlQueue.add, if_neg h1, if_neg h2, if_neg h3]
            exact pyHeappush_ms itemLt q.queue _
          · simp [CrawlQueue.add, h1, h2, h3]
          · simp [CrawlQueue.add, h1, h2, h3]
          · simp [CrawlQueue.add, h1, h2, h3]
        · intro q' hsteps _ p2 d2 r2
          have hmem : url ∈ q'.seen := by
            apply stepsNC_seen_mono _ _ hsteps
            rw [hseen]
            exact List.mem_cons_self url q.seen
          by_cases hc1 : q'.seen.length ≥ q'.max_urls
          · simp [CrawlQueue.add, hc1]
          · by_cases hc2 : d2 > q'.max_depth
            · simp [CrawlQueue.add, hc1, hc2]
            · simp [CrawlQueue.add, hc1, hc2, hmem]

unseal pySiftdown pySiftupLoop in
theorem c3_add_admission_witness :
    ((((CrawlQueue.init 5 3 1000).add "A" CrawlPriority.medium 0 none).2.add
        "A" CrawlPriority.high 1 none).1 = false) :=
  (c3_add_admission (CrawlQueue.init 5 3 1000) "A" CrawlPriority.medium 0
    none).2.2.2 _ (StepsNC.refl _) (by decide) CrawlPriority.high 1 none

/-- **C4** (counterexample).  `complete(u)` on a URL that is not
in-progress is *not* a no-op: on a fresh queue it still inserts the
URL into `completed`, changing the state. -/
theorem c4_complete_counterexample :
    ("a" ∉ (CrawlQueue.init 5 3 1000).in_progress) ∧
    ((CrawlQueue.init 5 3 1000).complete "a" ≠ CrawlQueue.init 5 3 1000) := by
  constructor
  · decide
  · decide

/-- **C4** (amended).  For every queue state and every URL,
`complete(u)` removes `u` from `in_progress` (it discards, so this
also covers `u ∈ in_progress`) and inserts it into `completed`,
raising no error; `seen`, the queued items and `failed` are always
unchanged; when `u` is not in-progress, `in_progress` is unchanged
too, so the only state change is the insertion into `completed`;
`complete` is idempotent. -/
theorem c4_complete_behaviour (q : CrawlQueue) (url : String) :
    (q.complete url).seen = q.seen ∧
    (q.complete url).queue = q.queue ∧
    (q.complete url).failed = q.failed ∧
    (q.complete url).in_progress = setDiscard q.in_progress url ∧
    (q.complete url).completed = setAdd q.completed url ∧
    url ∉ (q.complete url).in_progress ∧
    url ∈ (q.complete url).completed ∧
    (url ∉ q.in_progress → (q.complete url).in_progress = q.in_progress) ∧
    (q.complete url).complete url = q.complete url := by
  refine ⟨rfl, rfl, rfl, rfl, rfl, ?_, ?_, ?_, ?_⟩
  · exact setDiscard_not_mem q.in_progress url
  · exact setAdd_mem q.completed url
  · intro h
    exact setDiscard_of_not_mem q.in_progress url h
  · unfold CrawlQueue.complete
    simp only [setDiscard_idem, setAdd_idem]

theorem c4_complete_behaviour_witness :
    ("b" ∉ ((CrawlQueue.init 5 3 1000).complete "b").in_progress) ∧
    ("b" ∈ ((CrawlQueue.init 5 3 1000).complete "b").completed) ∧
    ("b" ∉ (CrawlQueue.init 5 3 1000).in_progress) ∧
    (((CrawlQueue.init 5 3 1000).complete "b").in_progress
      = (CrawlQueue.init 5 3 1000).in_progress) :=
  ⟨(c4_complete_behaviour (CrawlQueue.init 5 3 1000) "b").2.2.2.2.2.1,
   (c4_complete_behaviour (CrawlQueue.init 5 3 1000) "b").2.2.2.2.2.2.1,
   by decide,
   (c4_complete_behaviour (CrawlQueue.init 5 3 1000) "b").2.2.2.2.2.2.2.1
     (by decide)⟩

/-! ## Python string primitives

Shared helpers for the `crawl_utils.py` and `price_monitor.py` models.
`str.lower`/`str.strip` are modelled on the ASCII range (every string
these services compare against is ASCII). -/

/-- The ASCII whitespace characters recognised by Python `str.strip()`
and `\s` (on the ASCII range). -/
def isPySpace (c : Char) : Bool :=
  c = ' ' || c = '\t' || c = '\n' || c = '\x0d' || c = '\x0b' || c = '\x0c'

/-- Python `str.strip()` (ASCII whitespace). -/
def pyStrip (s : String) : String :=
  ⟨((s.data.dropWhile isPySpace).reverse.dropWhile isPySpace).reverse⟩

/-- Python `str.lower()` (ASCII range). -/
def pyLower (s : String) : String :=
  ⟨s.data.map Char.toLower⟩

/-- Python `s.split(sep)` for a one-character separator. -/
def splitChar (c : Char) : List Char → List (List Char)
  | [] => [[]]
  | x :: xs =>
    if x = c then
      [] :: splitChar c xs
    else
      match splitChar c xs with
      | [] => [[x]]
      | g :: gs => (x :: g) :: gs

/-! ## `crawl_utils.py` — `RobotsParser._parse` -/

/-- `RobotsRule` (crawl_utils.py); `crawl_delay` is an optional float,
modelled as an exact rational. -/
structure RobotsRule where
  user_agent : String
  allowed : List String
  disallowed : List String
  crawl_delay : Option ℚ
  sitemaps : List String
deriving DecidableEq

/-- The per-line guard pipeline of `RobotsParser._parse`: strip the
line, cut a `#` comment and re-strip, skip blank or colon-free lines,
then split once on `":"` into a lowered, stripped key and a stripped
value. -/
def robotsKeyValue (rawLine : String) : Option (String × String) :=
  let line0 := pyStrip rawLine
  let line :=
    if line0.data.contains '#' then
      pyStrip ⟨(splitChar '#' line0.data).headD []⟩
    else
      line0
  if line = "" then
    none
  else if ¬ line.data.contains ':' then
    none
  else
    let kv := line.data.span (fun ch => decide (ch ≠ ':'))
    some (pyLower (pyStrip ⟨kv.1⟩), pyStrip ⟨kv.2.drop 1⟩)

/-- The body of the `for line in content.split("\n")` loop of
`RobotsParser._parse`, acting on the pair (rule, current_agents).
`parseFloat` abstracts CPython `float(str)` (used only for the
`crawl-delay` value; a `ValueError` is `none` and leaves the field). -/
def robotsLineStep (parseFloat : String → Option ℚ)
    (st : RobotsRule × List String) (rawLine : String) : RobotsRule × List String :=
  let rule := st.1
  let agents := st.2
  match robotsKeyValue rawLine with
  | none => st
  | some (key, value) =>
    if key = "user-agent" then
      (rule, agents ++ [pyLower value])
    else if key = "disallow" ∧ ("*" ∈ agents ∨ "googlebot" ∈ agents) then
      if value ≠ "" then
        ({ rule with disallowed := rule.disallowed ++ [value] }, agents)
      else
        st
    else if key = "allow" ∧ ("*" ∈ agents ∨ "googlebot" ∈ agents) then
      if value ≠ "" then
        ({ rule with allowed := rule.allowed ++ [value] }, agents)
      else
        st
    else if key = "crawl-delay" ∧ ("*" ∈ agents ∨ "googlebot" ∈ agents) then
      match parseFloat value with
      | some f => ({ rule with crawl_delay := some f }, agents)
      | none => st
    else if key = "sitemap" then
      ({ rule with sitemaps := rule.sitemaps ++ [value] }, agents)
    else
      st

/-- The lines `content.split("\n")` iterated by `_parse`. -/
def robotsLines (content : String) : List String :=
  (splitChar '\n' content.data).map (fun l => (⟨l⟩ : String))

/-- `RobotsParser._parse(content)`. -/
def robotsParse (parseFloat : String → Option ℚ) (content : String) : RobotsRule :=
  ((robotsLines content).foldl
    (robotsLineStep parseFloat)
    ({ user_agent := "*", allowed := [], disallowed := [], crawl_delay := none,
       sitemaps := [] }, [])).1

/-- A line that names the wildcard agent or the crawler's own token
(`googlebot`), after lowering. -/
def isAgentMatchLine (rawLine : String) : Prop :=
  ∃ v : String, robotsKeyValue rawLine = some ("user-agent", v) ∧
    (pyLower v = "*" ∨ pyLower v = "googlebot")

/-- A `Disallow:` line with the non-empty value `v`. -/
def isDisallowLine (rawLine : String) (v : String) : Prop :=
  robotsKeyValue rawLine = some ("disallow", v) ∧ v ≠ ""

/-- An `Allow:` line with the non-empty value `v`. -/
def isAllowLine (rawLine : String) (v : String) : Prop :=
  robotsKeyValue rawLine = some ("allow", v) ∧ v ≠ ""

/-- The `"*" in current_agents or "googlebot" in current_agents` test. -/
def agentsMatched (agents : List String) : Prop :=
  "*" ∈ agents ∨ "googlebot" ∈ agents

theorem robotsLineStep_agents (f : String → Option ℚ)
    (st : RobotsRule × List String) (l : String) :
    agentsMatched (robotsLineStep f st l).2 ↔
      agentsMatched st.2 ∨ isAgentMatchLine l := by
  cases hkv : robotsKeyValue l with
  | none =>
    have hnm : ¬ isAgentMatchLine l := by
      rintro ⟨v, hv, _⟩
      rw [hkv] at hv
      exact Option.noConfusion hv
    have hstep : robotsLineStep f st l = st := by
      simp only [robotsLineStep, hkv]
    rw [hstep]
    simp [hnm]
  | some kv =>
    obtain ⟨key, value⟩ := kv
    by_cases hua : key = "user-agent"
    · subst hua
      have hiff : isAgentMatchLine l ↔
          (pyLower value = "*" ∨ pyLower value = "googlebot") := by
      -- placeholder
        constructor
        · rintro ⟨v, hv, hm⟩
          rw [hkv] at hv
          have hvv : value = v := by
            injection hv with hpair
            exact congrArg Prod.snd hpair
          rw [hvv]
          exact hm
        · intro hm
          exact ⟨value, hkv, hm⟩
      have hstep : (robotsLineStep f st l).2 = st.2 ++ [pyLower value] := by
        simp only [robotsLineStep, hkv, if_pos rfl, if_true]
      rw [hstep, hiff]
      unfold agentsMatched
      simp only [List.mem_append, List.mem_singleton]
      constructor
      · rintro ((h | h) | (h | h))
        · exact Or.inl (Or.inl h)
        · exact Or.inr (Or.inl h.symm)
        · exact Or.inl (Or.inr h)
        · exact Or.inr (Or.inr h.symm)
      · rintro ((h | h) | (h | h))
        · exact Or.inl (Or.inl h)
        · exact Or.inr (Or.inl h)
        · exact Or.inl (Or.inr h.symm)
        · exact Or.inr (Or.inr h.symm)
    · have hnm : ¬ isAgentMatchLine l := by
        rintro ⟨v, hv, _⟩
        rw [hkv] at hv
        injection hv with hpair
        exact hua (congrArg Prod.fst hpair)
      have hagents : (robotsLineStep f st l).2 = st.2 := by
        simp only [robotsLineStep, hkv, if_neg hua]
        split_ifs <;> try rfl
        split <;> rfl
      rw [hagents]
      simp [hnm]

theorem robotsLineStep_disallowed (f : String → Option ℚ)
    (st : RobotsRule × List String) (l : String) (v : String) :
    v ∈ (robotsLineStep f st l).1.disallowed ↔
      v ∈ st.1.disallowed ∨ (isDisallowLine l v ∧ agentsMatched st.2) := by
  cases hkv : robotsKeyValue l with
  | none =>
    have hnd : ¬ isDisallowLine l v := by
      rintro ⟨hv, _⟩
      rw [hkv] at hv
      exact Option.noConfusion hv
    have hstep : robotsLineStep f st l = st := by
      simp only [robotsLineStep, hkv]
    rw [hstep]
    simp [hnd]
  | some kv =>
    obtain ⟨key, value⟩ := kv
    by_cases hk : key = "disallow"
    · subst hk
      by_cases hm : ("*" : String) ∈ st.2 ∨ ("googlebot" : String) ∈ st.2
      · by_cases hv0 : value ≠ ""
        · have hd : isDisallowLine l v ↔ v = value := by
            constructor
            · rintro ⟨hv, _⟩
              rw [hkv] at hv
              injection hv with hpair
              exact (congrArg Prod.snd hpair).symm
            · intro hv
              subst hv
              exact ⟨hkv, hv0⟩
          have hstep : (robotsLineStep f st l).1.disallowed
              = st.1.disallowed ++ [value] := by
            simp only [robotsLineStep, hkv,
              eq_false (by decide : ¬ ("disallow" : String) = "user-agent"),
              true_and, if_false]
            rw [if_pos hm, if_pos hv0]
          rw [hstep]
          simp only [List.mem_append, List.mem_singleton, hd, agentsMatched]
          constructor
          · rintro (h | h)
            · exact Or.inl h
            · exact Or.inr ⟨h, hm⟩
          · rintro (h | ⟨h, _⟩)
            · exact Or.inl h
            · exact Or.inr h
        · have hnd : ¬ isDisallowLine l v := by
            rintro ⟨hv, hvne⟩
            rw [hkv] at hv
            injection hv with hpair
            have hvv : v = value := (congrArg Prod.snd hpair).symm
            rw [hvv] at hvne
            exact hv0 hvne
          have hstep : robotsLineStep f st l = st := by
            simp only [robotsLineStep, hkv,
              eq_false (by decide : ¬ ("disallow" : String) = "user-agent"),
              true_and, if_false]
            rw [if_pos hm, if_neg hv0]
          rw [hstep]
          simp [hnd]
      · have hstep : robotsLineStep f st l = st := by
          simp only [robotsLineStep, hkv,
            eq_false (by decide : ¬ ("disallow" : String) = "user-agent"),
            eq_false (by decide : ¬ ("disallow" : String) = "allow"),
            eq_false (by decide : ¬ ("disallow" : String) = "crawl-delay"),
            eq_false (by decide : ¬ ("disallow" : String) = "sitemap"),
            true_and, false_and, if_false]
          rw [if_neg hm]
        rw [hstep]
        have hno : ¬ (isDisallowLine l v ∧ agentsMatched st.2) := by
          rintro ⟨_, hcontra⟩
          exact hm hcontra
        simp [hno]
    · have hnd : ¬ isDisallowLine l v := by
        rintro ⟨hv, _⟩
        rw [hkv] at hv
        injection hv with hpair
        exact hk (congrArg Prod.fst hpair)
      have hsame : (robotsLineStep f st l).1.disallowed = st.1.disallowed := by
        simp only [robotsLineStep, hkv]
        by_cases h1 : key = "user-agent"
        · rw [if_pos h1]
        · rw [if_neg h1,
            if_neg (show ¬ (key = "disallow" ∧
              (("*" : String) ∈ st.2 ∨ ("googlebot" : String) ∈ st.2)) from
              fun hc => hk hc.1)]
          by_cases h3 : key = "allow" ∧
              (("*" : String) ∈ st.2 ∨ ("googlebot" : String) ∈ st.2)
          · rw [if_pos h3]
            split <;> rfl
          · rw [if_neg h3]
            by_cases h4 : key = "crawl-delay" ∧
                (("*" : String) ∈ st.2 ∨ ("googlebot" : String) ∈ st.2)
            · rw [if_pos h4]
              split <;> rfl
            · rw [if_neg h4]
              by_cases h5 : key = "sitemap"
              · rw [if_pos h5]
              · rw [if_neg h5]
      rw [hsame]
      simp [hnd]

theorem robotsLineStep_allowed (f : String → Option ℚ)
    (st : RobotsRule × List String) (l : String) (v : String) :
    v ∈ (robotsLineStep f st l).1.allowed ↔
      v ∈ st.1.allowed ∨ (isAllowLine l v ∧ agentsMatched st.2) := by
  cases hkv : robotsKeyValue l with
  | none =>
    have hnd : ¬ isAllowLine l v := by
      rintro ⟨hv, _⟩
      rw [hkv] at hv
      exact Option.noConfusion hv
    have hstep : robotsLineStep f st l = st := by
      simp only [robotsLineStep, hkv]
    rw [hstep]
    simp [hnd]
  | some kv =>
    obtain ⟨key, value⟩ := kv
    by_cases hk : key = "allow"
    · subst hk
      by_cases hm : ("*" : String) ∈ st.2 ∨ ("googlebot" : String) ∈ st.2
      · by_cases hv0 : value ≠ ""
        · have hd : isAllowLine l v ↔ v = value := by
            constructor
            · rintro ⟨hv, _⟩
              rw [hkv] at hv
              injection hv with hpair
              exact (congrArg Prod.snd hpair).symm
            · intro hv
              subst hv
              exact ⟨hkv, hv0⟩
          have hstep : (robotsLineStep f st l).1.allowed
              = st.1.allowed ++ [value] := by
            simp only [robotsLineStep, hkv,
              eq_false (by decide : ¬ ("allow" : String) = "user-agent"),
              eq_false (by decide : ¬ ("allow" : String) = "disallow"),
              true_and, false_and, if_false]
            rw [if_pos hm, if_pos hv0]
          rw [hstep]
          simp only [List.mem_append, List.mem_singleton, hd, agentsMatched]
          constructor
          · rintro (h | h)
            · exact Or.inl h
            · exact Or.inr ⟨h, hm⟩
          · rintro (h | ⟨h, _⟩)
            · exact Or.inl h
            · exact Or.inr h
        · have hnd : ¬ isAllowLine l v := by
            rintro ⟨hv, hvne⟩
            rw [hkv] at hv
            injection hv with hpair
            have hvv : v = value := (congrArg Prod.snd hpair).symm
            rw [hvv] at hvne
            exact hv0 hvne
          have hstep : robotsLineStep f st l = st := by
            simp only [robotsLineStep, hkv,
              eq_false (by decide : ¬ ("allow" : String) = "user-agent"),
              eq_false (by decide : ¬ ("allow" : String) = "disallow"),
              true_and, false_and, if_false]
            rw [if_pos hm, if_neg hv0]
          rw [hstep]
          simp [hnd]
      · have hstep : robotsLineStep f st l = st := by
          simp only [robotsLineStep, hkv,
            eq_false (by decide : ¬ ("allow" : String) = "user-agent"),
            eq_false (by decide : ¬ ("allow" : String) = "disallow"),
            eq_false (by decide : ¬ ("allow" : String) = "crawl-delay"),
            eq_false (by decide : ¬ ("allow" : String) = "sitemap"),
            true_and, false_and, if_false]
          rw [if_neg hm]
        rw [hstep]
        have hno : ¬ (isAllowLine l v ∧ agentsMatched st.2) := by
          rintro ⟨_, hcontra⟩
          exact hm hcontra
        simp [hno]
    · have hnd : ¬ isAllowLine l v := by
        rintro ⟨hv, _⟩
        rw [hkv] at hv
        injection hv with hpair
        exact hk (congrArg Prod.fst hpair)
      have hsame : (robotsLineStep f st l).1.allowed = st.1.allowed := by
        simp only [robotsLineStep, hkv]
        by_cases h1 : key = "user-agent"
        · rw [if_pos h1]
        · rw [if_neg h1]
          by_cases h2 : key = "disallow" ∧
              (("*" : String) ∈ st.2 ∨ ("googlebot" : String) ∈ st.2)
          · rw [if_pos h2]
            split <;> rfl
          · rw [if_neg h2,
              if_neg (show ¬ (key = "allow" ∧
                (("*" : String) ∈ st.2 ∨ ("googlebot" : String) ∈ st.2)) from
                fun hc => hk hc.1)]
            by_cases h4 : key = "crawl-delay" ∧
                (("*" : String) ∈ st.2 ∨ ("googlebot" : String) ∈ st.2)
            · rw [if_pos h4]
              split <;> rfl
            · rw [if_neg h4]
              by_cases h5 : key = "sitemap"
              · rw [if_pos h5]
              · rw [if_neg h5]
      rw [hsame]
      simp [hnd]

theorem robotsLineStep_crawl_delay (f : String → Option ℚ)
    (st : RobotsRule × List String) (l : String)
    (h : (robotsLineStep f st l).1.crawl_delay ≠ none) :
    st.1.crawl_delay ≠ none ∨
      (∃ v q, robotsKeyValue l = some ("crawl-delay", v) ∧ f v = some q ∧
        agentsMatched st.2) := by
  cases hkv : robotsKeyValue l with
  | none =>
    have hstep : robotsLineStep f st l = st := by
      simp only [robotsLineStep, hkv]
    rw [hstep] at h
    exact Or.inl h
  | some kv =>
    obtain ⟨key, value⟩ := kv
    by_cases hk : key = "crawl-delay"
    · subst hk
      by_cases hm : ("*" : String) ∈ st.2 ∨ ("googlebot" : String) ∈ st.2
      · cases hf : f value with
        | none =>
          have hstep : robotsLineStep f st l = st := by
            simp only [robotsLineStep, hkv,
              eq_false (by decide : ¬ ("crawl-delay" : String) = "user-agent"),
              eq_false (by decide : ¬ ("crawl-delay" : String) = "disallow"),
              eq_false (by decide : ¬ ("crawl-delay" : String) = "allow"),
              true_and, false_and, if_false]
            rw [if_pos hm, hf]
          rw [hstep] at h
          exact Or.inl h
        | some qq =>
          exact Or.inr ⟨value, qq, rfl, hf, hm⟩
      · have hstep : robotsLineStep f st l = st := by
          simp only [robotsLineStep, hkv,
            eq_false (by decide : ¬ ("crawl-delay" : String) = "user-agent"),
            eq_false (by decide : ¬ ("crawl-delay" : String) = "disallow"),
            eq_false (by decide : ¬ ("crawl-delay" : String) = "allow"),
            eq_false (by decide : ¬ ("crawl-delay" : String) = "sitemap"),
            true_and, false_and, if_false]
          rw [if_neg hm]
        rw [hstep] at h
        exact Or.inl h
    · have hsame : (robotsLineStep f st l).1.crawl_delay = st.1.crawl_delay := by
        simp only [robotsLineStep, hkv]
        by_cases h1 : key = "user-agent"
        · rw [if_pos h1]
        · rw [if_neg h1]
          by_cases h2 : key = "disallow" ∧
              (("*" : String) ∈ st.2 ∨ ("googlebot" : String) ∈ st.2)
          · rw [if_pos h2]
            split <;> rfl
          · rw [if_neg h2]
            by_cases h3 : key = "allow" ∧
                (("*" : String) ∈ st.2 ∨ ("googlebot" : String) ∈ st.2)
            · rw [if_pos h3]
              split <;> rfl
            · rw [if_neg h3,
                if_neg (show ¬ (key = "crawl-delay" ∧
                  (("*" : String) ∈ st.2 ∨ ("googlebot" : String) ∈ st.2)) from
                  fun hc => hk hc.1)]
              by_cases h5 : key = "sitemap"
              · rw [if_pos h5]
              · rw [if_neg h5]
      rw [hsame] at h
      exact Or.inl h

/-- Splitting an "applied after an earlier matching line" decomposition
of `l :: ls` into its head and tail cases. -/
theorem exists_decomp_cons {α : Type} (l : α) (ls : List α)
    (P : α → Prop) (Q : α → Prop) (base : Prop) :
    (∃ pre mid post, l :: ls = pre ++ mid :: post ∧ P mid ∧
      (base ∨ ∃ prior ∈ pre, Q prior))
    ↔ ((P l ∧ base) ∨
       ∃ pre mid post, ls = pre ++ mid :: post ∧ P mid ∧
         ((base ∨ Q l) ∨ ∃ prior ∈ pre, Q prior)) := by
  constructor
  · rintro ⟨pre, mid, post, heq, hP, hb⟩
    cases pre with
    | nil =>
      simp only [List.nil_append] at heq
      injection heq with h1 h2
      rcases hb with hb | ⟨prior, hprior, _⟩
      · exact Or.inl ⟨h1 ▸ hP, hb⟩
      · simp at hprior
    | cons p0 pre2 =>
      simp only [List.cons_append] at heq
      injection heq with h1 h2
      right
      refine ⟨pre2, mid, post, h2, hP, ?_⟩
      rcases hb with hb | ⟨prior, hprior, hQ⟩
      · exact Or.inl (Or.inl hb)
      · rcases List.mem_cons.1 hprior with hp | hp
        · rw [hp, ← h1] at hQ
          exact Or.inl (Or.inr hQ)
        · exact Or.inr ⟨prior, hp, hQ⟩
  · rintro (⟨hP, hb⟩ | ⟨pre, mid, post, heq, hP, hrest⟩)
    · exact ⟨[], l, ls, rfl, hP, Or.inl hb⟩
    · rcases hrest with (hb | hQ) | ⟨prior, hprior, hQ⟩
      · exact ⟨l :: pre, mid, post, by rw [heq, List.cons_append], hP, Or.inl hb⟩
      · exact ⟨l :: pre, mid, post, by rw [heq, List.cons_append], hP,
          Or.inr ⟨l, List.mem_cons_self l pre, hQ⟩⟩
      · exact ⟨l :: pre, mid, post, by rw [heq, List.cons_append], hP,
          Or.inr ⟨prior, List.mem_cons_of_mem l hprior, hQ⟩⟩

theorem robotsFold_disallowed (f : String → Option ℚ) :
    ∀ (lines : List String) (st : RobotsRule × List String) (v : String),
    v ∈ (lines.foldl (robotsLineStep f) st).1.disallowed ↔
      v ∈ st.1.disallowed ∨
      ∃ pre mid post, lines = pre ++ mid :: post ∧ isDisallowLine mid v ∧
        (agentsMatched st.2 ∨ ∃ prior ∈ pre, isAgentMatchLine prior) := by
  intro lines
  induction lines with
  | nil =>
    intro st v
    simp only [List.foldl_nil]
    constructor
    · exact Or.inl
    · rintro (h | ⟨pre, mid, post, heq, _, _⟩)
      · exact h
      · cases pre <;> simp at heq
  | cons l ls ih =>
    intro st v
    rw [List.foldl_cons]
    rw [ih (robotsLineStep f st l) v]
    rw [robotsLineStep_disallowed f st l v]
    simp only [robotsLineStep_agents f st l]
    rw [exists_decomp_cons l ls (fun mid => isDisallowLine mid v)
      isAgentMatchLine (agentsMatched st.2)]
    exact or_assoc

theorem robotsFold_allowed (f : String → Option ℚ) :
    ∀ (lines : List String) (st : RobotsRule × List String) (v : String),
    v ∈ (lines.foldl (robotsLineStep f) st).1.allowed ↔
      v ∈ st.1.allowed ∨
      ∃ pre mid post, lines = pre ++ mid :: post ∧ isAllowLine mid v ∧
        (agentsMatched st.2 ∨ ∃ prior ∈ pre, isAgentMatchLine prior) := by
  intro lines
  induction lines with
  | nil =>
    intro st v
    simp only [List.foldl_nil]
    constructor
    · exact Or.inl
    · rintro (h | ⟨pre, mid, post, heq, _, _⟩)
      · exact h
      · cases pre <;> simp at heq
  | cons l ls ih =>
    intro st v
    rw [List.foldl_cons]
    rw [ih (robotsLineStep f st l) v]
    rw [robotsLineStep_allowed f st l v]
    simp only [robotsLineStep_agents f st l]
    rw [exists_decomp_cons l ls (fun mid => isAllowLine mid v)
      isAgentMatchLine (agentsMatched st.2)]
    exact or_assoc

theorem robotsFold_crawl_delay (f : String → Option ℚ) :
    ∀ (lines : List String) (st : RobotsRule × List String),
    (lines.foldl (robotsLineStep f) st).1.crawl_delay ≠ none →
      st.1.crawl_delay ≠ none ∨
      ∃ pre mid post, lines = pre ++ mid :: post ∧
        (∃ v q, robotsKeyValue mid = some ("crawl-delay", v) ∧ f v = some q) ∧
        (agentsMatched st.2 ∨ ∃ prior ∈ pre, isAgentMatchLine prior) := by
  intro lines
  induction lines with
  | nil =>
    intro st h
    exact Or.inl h
  | cons l ls ih =>
    intro st h
    rw [List.foldl_cons] at h
    rcases ih (robotsLineStep f st l) h with hcd | ⟨pre, mid, post, heq, hkv, hb⟩
    · rcases robotsLineStep_crawl_delay f st l hcd with hcd0 | ⟨v, q, hk, hf, hm⟩
      · exact Or.inl hcd0
      · exact Or.inr ⟨[], l, ls, rfl, ⟨v, q, hk, hf⟩, Or.inl hm⟩
    · right
      refine ⟨l :: pre, mid, post, by rw [heq, List.cons_append], hkv, ?_⟩
      rcases hb with hb | ⟨prior, hprior, hQ⟩
      · rcases (robotsLineStep_agents f st l).1 hb with hm | hq
        · exact Or.inl hm
        · exact Or.inr ⟨l, List.mem_cons_self l pre, hq⟩
      · exact Or.inr ⟨prior, List.mem_cons_of_mem l hprior, hQ⟩

/-- **C7** (amended).  In `RobotsParser._parse`, an Allow/Disallow/
Crawl-delay directive is collected into the policy exactly when at
least one `User-agent` line naming `*` or the crawler's token
`googlebot` occurs anywhere *earlier* in the file — the block
structure is irrelevant, because `current_agents` accumulates and is
never reset at block boundaries.  In particular no directive is ever
applied before the first matching `User-agent` line. -/
theorem c7_directive_application (f : String → Option ℚ) (content : String) :
    (∀ v : String, v ∈ (robotsParse f content).disallowed ↔
      ∃ pre mid post, robotsLines content = pre ++ mid :: post ∧
        isDisallowLine mid v ∧ ∃ prior ∈ pre, isAgentMatchLine prior) ∧
    (∀ v : String, v ∈ (robotsParse f content).allowed ↔
      ∃ pre mid post, robotsLines content = pre ++ mid :: post ∧
        isAllowLine mid v ∧ ∃ prior ∈ pre, isAgentMatchLine prior) ∧
    ((robotsParse f content).crawl_delay ≠ none →
      ∃ pre mid post, robotsLines content = pre ++ mid :: post ∧
        (∃ v q, robotsKeyValue mid = some ("crawl-delay", v) ∧ f v = some q) ∧
        ∃ prior ∈ pre, isAgentMatchLine prior) := by
  have hM : ¬ agentsMatched ([] : List String) := by
    rintro (h | h) <;> simp at h
  refine ⟨?_, ?_, ?_⟩
  · intro v
    unfold robotsParse
    rw [robotsFold_disallowed f (robotsLines content) _ v]
    simp [hM]
  · intro v
    unfold robotsParse
    rw [robotsFold_allowed f (robotsLines content) _ v]
    simp [hM]
  · intro h
    unfold robotsParse at h
    rcases robotsFold_crawl_delay f (robotsLines content) _ h with hcd | hdec
    · simp at hcd
    · obtain ⟨pre, mid, post, heq, hkv, hb⟩ := hdec
      rcases hb with hb | hb
      · exact absurd hb hM
      · exact ⟨pre, mid, post, heq, hkv, hb⟩

/-- **C7** (counterexample).  With a `User-agent: *` block earlier in
the file, the `Disallow: /b` directive inside the `User-agent: badbot`
block *is* collected (first content); directives in a non-matching
block with no earlier matching line are not (second content), so the
claim that non-matching blocks are never applied is false. -/
theorem c7_block_scoping_counterexample :
    (robotsParse (fun _ => none)
      "User-agent: *\nDisallow: /a\n\nUser-agent: badbot\nDisallow: /b").disallowed
        = ["/a", "/b"] ∧
    (robotsParse (fun _ => none)
      "User-agent: badbot\nDisallow: /b\nAllow: /c").disallowed = [] ∧
    (robotsParse (fun _ => none)
      "User-agent: badbot\nDisallow: /b\nAllow: /c").allowed = [] := by
  refine ⟨?_, ?_, ?_⟩ <;> decide

theorem c7_directive_application_witness :
    ("/a" : String) ∈ (robotsParse (fun _ => none)
      "User-agent: *\nDisallow: /a\n\nUser-agent: badbot\nDisallow: /b").disallowed :=
  ((c7_directive_application (fun _ => none)
    "User-agent: *\nDisallow: /a\n\nUser-agent: badbot\nDisallow: /b").1 "/a").mpr
    ⟨["User-agent: *"], "Disallow: /a", ["", "User-agent: badbot", "Disallow: /b"],
      by decide, ⟨by decide, by decide⟩,
      ⟨"User-agent: *", by decide, ⟨"*", by decide, Or.inl (by decide)⟩⟩⟩

/-! ## `crawl_utils.py` — `ContentFingerprinter`

`hashlib.sha256` is embedded as a full SHA-256 implementation over the
UTF-8 bytes of the input (FIPS 180-4); `hexdigest()` is the lowercase
hex rendering. -/

/-- UTF-8 encoding of one code point. -/
def utf8EncodeChar (c : Char) : List Nat :=
  let n := c.toNat
  if n < 128 then
    [n]
  else if n < 2048 then
    [192 + n / 64, 128 + n % 64]
  else if n < 65536 then
    [224 + n / 4096, 128 + n / 64 % 64, 128 + n % 64]
  else
    [240 + n / 262144, 128 + n / 4096 % 64, 128 + n / 64 % 64, 128 + n % 64]

/-- `str.encode()`: UTF-8 bytes of a string. -/
def utf8Encode (s : String) : List Nat :=
  (s.data.map utf8EncodeChar).flatten

/-- Truncation to a 32-bit word. -/
def w32 (x : Nat) : Nat := x % 4294967296

/-- 32-bit right rotation. -/
def rotr32 (n x : Nat) : Nat := w32 (x / 2 ^ n + x % 2 ^ n * 2 ^ (32 - n))

/-- 32-bit right shift. -/
def shr32 (n x : Nat) : Nat := x / 2 ^ n

def sha256ssig0 (x : Nat) : Nat := rotr32 7 x ^^^ rotr32 18 x ^^^ shr32 3 x

def sha256ssig1 (x : Nat) : Nat := rotr32 17 x ^^^ rotr32 19 x ^^^ shr32 10 x

def sha256bsig0 (x : Nat) : Nat := rotr32 2 x ^^^ rotr32 13 x ^^^ rotr32 22 x

def sha256bsig1 (x : Nat) : Nat := rotr32 6 x ^^^ rotr32 11 x ^^^ rotr32 25 x

def sha256ch (e f g : Nat) : Nat := (e &&& f) ^^^ ((4294967295 - e) &&& g)

def sha256maj (a b c : Nat) : Nat := (a &&& b) ^^^ (a &&& c) ^^^ (b &&& c)

/-- The SHA-256 round constants (FIPS 180-4, in decimal). -/
def sha256K : List Nat :=
  [1116352408, 1899447441, 3049323471, 3921009573, 961987163, 1508970993,
   2453635748, 2870763221, 3624381080, 310598401, 607225278, 1426881987,
   1925078388, 2162078206, 2614888103, 3248222580, 3835390401, 4022224774,
   264347078, 604807628, 770255983, 1249150122, 1555081692, 1996064986,
   2554220882, 2821834349, 2952996808, 3210313671, 3336571891, 3584528711,
   113926993, 338241895, 666307205, 773529912, 1294757372, 1396182291,
   1695183700, 1986661051, 2177026350, 2456956037, 2730485921, 2820302411,
   3259730800, 3345764771, 3516065817, 3600352804, 4094571909, 275423344,
   430227734, 506948616, 659060556, 883997877, 958139571, 1322822218,
   1537002063, 1747873779, 1955562222, 2024104815, 2227730452, 2361852424,
   2428436474, 2756734187, 3204031479, 3329325298]

/-- The SHA-256 initial hash value (in decimal). -/
def sha256H0 : List Nat :=
  [1779033703, 3144134277, 1013904242, 2773480762,
   1359893119, 2600822924, 528734635, 1541459225]

/-- `n` big-endian bytes of `x`. -/
def toBytesBE : Nat → Nat → List Nat
  | 0, _ => []
  | n + 1, x => toBytesBE n (x / 256) ++ [x % 256]

/-- SHA-256 padding: `0x80`, zeros to 56 mod 64, 8-byte bit length. -/
def sha256Pad (msg : List Nat) : List Nat :=
  let z := (56 + 64 - (msg.length + 1) % 64) % 64
  msg ++ [128] ++ List.replicate z 0 ++ toBytesBE 8 (msg.length * 8)

/-- Group bytes into big-endian 32-bit words. -/
def toW32s : List Nat → List Nat
  | b0 :: b1 :: b2 :: b3 :: rest =>
    (((b0 * 256 + b1) * 256 + b2) * 256 + b3) :: toW32s rest
  | _ => []

/-- Extend the 16 schedule words to 64. -/
def sha256Extend : Nat → List Nat → List Nat
  | 0, w => w
  | n + 1, w =>
    sha256Extend n (w ++ [w32 (sha256ssig1 (w.getD (w.length - 2) 0)
      + w.getD (w.length - 7) 0 + sha256ssig0 (w.getD (w.length - 15) 0)
      + w.getD (w.length - 16) 0)])

/-- One SHA-256 compression round over the running state (8 words). -/
def sha256Round (w : List Nat) (s : List Nat) (i : Nat) : List Nat :=
  let a := s.getD 0 0
  let b := s.getD 1 0
  let c := s.getD 2 0
  let d := s.getD 3 0
  let e := s.getD 4 0
  let f := s.getD 5 0
  let g := s.getD 6 0
  let h := s.getD 7 0
  let t1 := w32 (h + sha256bsig1 e + sha256ch e f g
    + sha256K.getD i 0 + w.getD i 0)
  let t2 := w32 (sha256bsig0 a + sha256maj a b c)
  [w32 (t1 + t2), a, b, c, w32 (d + t1), e, f, g]

/-- Compress one 64-byte chunk into the state. -/
def sha256Compress (state : List Nat) (chunk : List Nat) : List Nat :=
  let w := sha256Extend 48 (toW32s chunk)
  let final := (List.range 64).foldl (sha256Round w) state
  List.zipWith (fun x y => w32 (x + y)) state final

/-- Split into 64-byte chunks. -/
def chunks64 (l : List Nat) : List (List Nat) :=
  if l = [] then
    []
  else
    l.take 64 :: chunks64 (l.drop 64)
termination_by l.length
decreasing_by
  simp_wf
  cases l with
  | nil => simp_all
  | cons x xs => simp

/-- SHA-256 of a byte string. -/
def sha256Bytes (msg : List Nat) : List Nat :=
  (((chunks64 (sha256Pad msg)).foldl sha256Compress sha256H0).map
    (toBytesBE 4)).flatten

/-- A lowercase hex digit. -/
def hexDigit (n : Nat) : Char :=
  if n < 10 then Char.ofNat (48 + n) else Char.ofNat (87 + n)

/-- Lowercase hex rendering of bytes (`hexdigest()`). -/
def bytesToHex (bs : List Nat) : String :=
  ⟨(bs.map (fun b => [hexDigit (b / 16), hexDigit (b % 16)])).flatten⟩

/-- `hashlib.sha256(s.encode()).hexdigest()`. -/
def sha256Hex (s : String) : String :=
  bytesToHex (sha256Bytes (utf8Encode s))

/-- `\w` over the ASCII range: letters, digits and underscore. -/
def isWordChar (c : Char) : Bool :=
  c.isAlphanum || c = '_'

/-- `re.sub(r'\s+', ' ', text)`: collapse each whitespace run to one
space. -/
def collapseWs : List Char → List Char
  | [] => []
  | [c] => if isPySpace c then [' '] else [c]
  | c1 :: c2 :: cs =>
    if isPySpace c1 then
      if isPySpace c2 then
        collapseWs (c2 :: cs)
      else
        ' ' :: collapseWs (c2 :: cs)
    else
      c1 :: collapseWs (c2 :: cs)

/-- `ContentFingerprinter._normalize_text`: lowercase, collapse
whitespace, drop `[^\w\s]`, strip. -/
def normalizeText (text : String) : String :=
  pyStrip ⟨(collapseWs (text.data.map Char.toLower)).filter
    (fun c => isWordChar c || isPySpace c)⟩

/-- The fields of `ContentFingerprinter.generate` consumed by the
specification.  The `simhash` and `phrase_hash` fields (MD5-based
similarity signatures, used only by `compare`) are outside the model;
no claim mentions them. -/
structure Fingerprint where
  full_hash : String
  word_count : Nat
  char_count : Nat
deriving DecidableEq

/-- `ContentFingerprinter.generate(text)` (the modelled fields). -/
def fingerprintGenerate (text : String) : Fingerprint :=
  let normalized := normalizeText text
  { full_hash := sha256Hex normalized
    word_count := ((splitChar ' ' normalized.data).filter
      (fun w => ¬ w = [])).length
    char_count := normalized.data.length }

/-- **C8** (counterexample).  `"A."` and `"a"` differ in content
beyond whitespace (they differ even after deleting every whitespace
character), yet their `full_hash` values coincide, because
`_normalize_text` lowercases and strips punctuation before hashing. -/
theorem c8_full_hash_counterexample :
    (fingerprintGenerate "A.").full_hash = (fingerprintGenerate "a").full_hash ∧
    "A.".data.filter (fun c => ¬ isPySpace c)
      ≠ "a".data.filter (fun c => ¬ isPySpace c) := by
  constructor
  · show sha256Hex (normalizeText "A.") = sha256Hex (normalizeText "a")
    exact congrArg sha256Hex (by decide)
  · decide

/-- **C8** (amended).  `full_hash` is deterministic and depends only
on the normalized text: any two inputs with the same lowercased,
whitespace-collapsed, punctuation-stripped form — in particular
identical inputs, or inputs differing only in whitespace runs, letter
case or punctuation — receive the identical `full_hash`. -/
theorem c8_full_hash_of_normalized (a b : String)
    (h : normalizeText a = normalizeText b) :
    (fingerprintGenerate a).full_hash = (fingerprintGenerate b).full_hash := by
  show sha256Hex (normalizeText a) = sha256Hex (normalizeText b)
  exact congrArg sha256Hex h

theorem c8_full_hash_of_normalized_witness :
    (fingerprintGenerate "Price:  $10").full_hash
      = (fingerprintGenerate "price 10").full_hash :=
  c8_full_hash_of_normalized "Price:  $10" "price 10" (by decide)

/-! ## `price_monitor.py` — `PriceMonitor`

`decimal.Decimal` values are modelled by `PyDec`: an exact rational,
or one of the special values (`NaN`, `±Infinity`) the `Decimal`
string constructor can produce.  Float arithmetic in
`process_prices` is modelled by exact rationals; the one float
constant that matters, `0.01 * 100`, is exactly `1.0` in IEEE-754
double precision, so the threshold comparison is faithfully `≥ 1`. -/

/-- A `decimal.Decimal` value. -/
inductive PyDec
  | num (q : ℚ)
  | nan
  | inf
  | ninf
deriving DecidableEq

/-- Digits of a decimal literal chunk: value and digit count. -/
def digitsVal : List Char → Option (Nat × Nat)
  | [] => some (0, 0)
  | c :: cs =>
    if c.isDigit then
      match digitsVal cs with
      | some (v, k) => some ((c.toNat - 48) * 10 ^ k + v, k + 1)
      | none => none
    else
      none

/-- Parse the mantissa `digits [. digits]` of a `Decimal` literal,
returning its value and the number of fractional digits. -/
def mantissaVal (cs : List Char) : Option (ℚ × Nat) :=
  match splitChar '.' cs with
  | [intPart] =>
    match digitsVal intPart with
    | some (v, k) => if k = 0 then none else some ((v : ℚ), 0)
    | none => none
  | [intPart, fracPart] =>
    match digitsVal intPart, digitsVal fracPart with
    | some (vi, ki), some (vf, kf) =>
      if ki = 0 ∧ kf = 0 then
        none
      else
        some ((vi : ℚ) + (vf : ℚ) / (10 ^ kf : ℚ), kf)
    | _, _ => none
  | _ => none

/-- The string grammar of the `decimal.Decimal` constructor:
optional surrounding whitespace, underscores removed anywhere
(CPython's `_decimal` deletes them before parsing), optional sign,
then a numeric mantissa with optional exponent, or `Infinity`/`Inf`,
or `NaN`/`sNaN` with optional diagnostic digits (case-insensitive). -/
def decimalParse (s : String) : Option PyDec :=
  let t := ((pyLower (pyStrip s)).data).filter (fun c => ¬ c = '_')
  let signed : Bool × List Char :=
    match t with
    | '-' :: rest => (true, rest)
    | '+' :: rest => (false, rest)
    | _ => (false, t)
  let neg := signed.1
  let body := signed.2
  if body = "infinity".data ∨ body = "inf".data then
    some (if neg then PyDec.ninf else PyDec.inf)
  else if (match body with
    | 'n' :: 'a' :: 'n' :: ds => ds.all Char.isDigit
    | 's' :: 'n' :: 'a' :: 'n' :: ds => ds.all Char.isDigit
    | _ => false) then
    some PyDec.nan
  else
    match splitChar 'e' body with
    | [m] =>
      match mantissaVal m with
      | some (v, _) => some (PyDec.num (if neg then -v else v))
      | none => none
    | [m, ex] =>
      let esigned : Bool × List Char :=
        match ex with
        | '-' :: rest => (true, rest)
        | '+' :: rest => (false, rest)
        | _ => (false, ex)
      match mantissaVal m, digitsVal esigned.2 with
      | some (v, _), some (ev, ek) =>
        if ek = 0 then
          none
        else
          let scaled := if esigned.1 then v / (10 ^ ev : ℚ) else v * (10 ^ ev : ℚ)
          some (PyDec.num (if neg then -scaled else scaled))
      | _, _ => none
    | _ => none

/-- The characters removed by `re.sub(r'[\$€£¥₹\s]', '', price_str)`. -/
def isPriceJunk (c : Char) : Bool :=
  c = '$' || c = '€' || c = '£' || c = '¥' || c = '₹' || isPySpace c

/-- Index of the last occurrence of `c` (defined when present). -/
def lastIndexOf (c : Char) (l : List Char) : Nat :=
  l.length - 1 - l.reverse.findIdx (fun x => x = c)

/-- The cleaning phase of `PriceMonitor.normalize_price`: strip
currency symbols/whitespace and resolve European vs US separators. -/
def cleanPrice (s : String) : String :=
  let cleaned := s.data.filter (fun c => ¬ isPriceJunk c)
  if ',' ∈ cleaned ∧ '.' ∈ cleaned then
    if lastIndexOf ',' cleaned > lastIndexOf '.' cleaned then
      ⟨(cleaned.filter (fun c => ¬ c = '.')).map
        (fun c => if c = ',' then '.' else c)⟩
    else
      ⟨cleaned.filter (fun c => ¬ c = ',')⟩
  else if ',' ∈ cleaned then
    if ((splitChar ',' cleaned).getLastD []).length = 2 then
      ⟨cleaned.map (fun c => if c = ',' then '.' else c)⟩
    else
      ⟨cleaned.filter (fun c => ¬ c = ',')⟩
  else
    ⟨cleaned⟩

/-- `PriceMonitor.normalize_price`: the bare `except:` turns every
parse failure into `Decimal(0)`. -/
def normalizePrice (s : String) : PyDec :=
  match decimalParse (cleanPrice s) with
  | some d => d
  | none => PyDec.num 0

/-- The comparison `price > 0` on Decimals.  On `NaN` the Python
comparison would raise `InvalidOperation`; no string produced by the
price regexes parses to `NaN`, so that branch is modelled as
`false`. -/
def decGt0 : PyDec → Bool
  | PyDec.num q => decide (0 < q)
  | PyDec.inf => true
  | PyDec.nan => false
  | PyDec.ninf => false

/-- Substring test at the head: `subAt pat text` iff `pat` is an
initial segment of `text`. -/
def subAt : List Char → List Char → Bool
  | [], _ => true
  | _ :: _, [] => false
  | a :: as, b :: bs => a = b && subAt as bs

/-- Python's `sub in text` on strings (as character lists). -/
def containsSub (pat : List Char) : List Char → Bool
  | [] => pat.isEmpty
  | c :: rest => subAt pat (c :: rest) || containsSub pat rest

/-- `PriceMonitor.extract_currency`: first key of `CURRENCY_PATTERNS`
(in insertion order) contained in the text wins; default `USD`. -/
def extractCurrency (text : String) : String :=
  if containsSub "$".data text.data then "USD"
  else if containsSub "€".data text.data then "EUR"
  else if containsSub "£".data text.data then "GBP"
  else if containsSub "¥".data text.data then "JPY"
  else if containsSub "₹".data text.data then "INR"
  else if containsSub "USD".data text.data then "USD"
  else if containsSub "EUR".data text.data then "EUR"
  else if containsSub "GBP".data text.data then "GBP"
  else "USD"

/-- The `PRICE_PATTERNS` regex literals (data only: matching is an
abstract parameter of the extraction model). -/
def PRICE_PATTERNS : List String :=
  [ "[\\$€£¥₹]\\s*(\\d\x7b1,3\x7d(?:[,.\\s]?\\d\x7b3\x7d)*(?:[.,]\\d\x7b2\x7d))",
    "[\\$€£¥₹]\\s*(\\d\x7b1,6\x7d)",
    "(\\d\x7b1,3\x7d(?:[,.\\s]?\\d\x7b3\x7d)*(?:[.,]\\d\x7b2\x7d)?)\\s*(?:USD|EUR|GBP|JPY|INR)",
    "[\\$€£]\\s*(\\d+(?:[.,]\\d\x7b2\x7d)?)\\s*(?:/mo|/month|/mon|per\\s*month)",
    "[\\$€£]\\s*(\\d+(?:[.,]\\d\x7b2\x7d)?)\\s*(?:/yr|/year|per\\s*year|annually)",
    "(?:starting|from|starts)\\s*(?:at|@)?\\s*[\\$€£]\\s*(\\d+(?:[.,]\\d\x7b2\x7d)?)",
    "(?:price|cost|fee)[:=]?\\s*[\\$€£]\\s*(\\d+(?:[.,]\\d\x7b2\x7d)?)",
    "[\\$€£]\\s*(\\d+(?:[.,]\\d\x7b2\x7d)?)\\s*(?:per\\s*(?:user|seat|license|month|year))" ]

/-- The `DISCOUNT_PATTERNS` regex literals. -/
def DISCOUNT_PATTERNS : List String :=
  [ "(\\d+)\\s*%\\s*off",
    "save\\s*(\\d+)\\s*%",
    "(\\d+)\\s*%\\s*discount",
    "(\\d+)\\s*%\\s*savings" ]

/-- `int` applied to a regex group matched by `(\d+)` (digits only). -/
def natOfDigits (s : String) : Nat :=
  s.data.foldl (fun a c => a * 10 + (c.toNat - 48)) 0

/-- `original_price > price` on Decimals.  `NaN` would raise in
Python; it is unreachable here because regex matches never parse to
`NaN`, and is modelled as `false`. -/
def pyDecGt (a b : PyDec) : Bool :=
  match a, b with
  | PyDec.nan, _ => false
  | _, PyDec.nan => false
  | PyDec.num x, PyDec.num y => decide (y < x)
  | PyDec.inf, PyDec.inf => false
  | PyDec.inf, _ => true
  | PyDec.ninf, _ => false
  | PyDec.num _, PyDec.inf => false
  | PyDec.num _, PyDec.ninf => true

/-- `int((1 - float(price) / float(original_price)) * 100)`.  It runs
only under `original_price > price > 0`, where the value lies in
`(0, 100)` and `int` truncation coincides with the floor; the
remaining arms are unreachable defaults. -/
def discountInt (price op : PyDec) : Int :=
  match price, op with
  | PyDec.num p, PyDec.num o => if o = 0 then 0 else Int.floor ((1 - p / o) * 100)
  | PyDec.num _, PyDec.inf => 100
  | _, _ => 0

/-- The parent element of a price element, as seen by
`extract_prices`: its full text, and the text of its
strikethrough/original-price child when one exists. -/
structure ParentInfo where
  text : String
  strikeText : Option String
deriving DecidableEq

/-- One DOM element produced by the pricing-selector loops of
`extract_prices` (BeautifulSoup itself is outside the model):
its stripped text, its parent, and the result of
`_find_product_name` for it. -/
structure PageElement where
  text : String
  parent : Option ParentInfo
  productName : Option String
deriving DecidableEq

/-- One dict appended to `prices` by `extract_prices`. -/
structure PriceRecord where
  product_name : String
  price : PyDec
  original_price : Option PyDec
  currency : String
  is_on_sale : Bool
  discount_percent : Option Int
  source_url : String
deriving DecidableEq

/-- The record built for one positive regex match inside
`extract_prices` (`findall pat s` abstracts `re.findall(pat, s, re.I)`
and `searchGroup pat s` abstracts `re.search(pat, s, re.I)` returning
the first group). -/
def priceRecordOfMatch (findall : String → String → List String)
    (searchGroup : String → String → Option String)
    (url : String) (el : PageElement) (price : PyDec) : PriceRecord :=
  let extras : Option PyDec × Bool × Option Int :=
    match el.parent with
    | none => (none, false, none)
    | some par =>
      let fromStrike : Option PyDec × Bool × Option Int :=
        match par.strikeText with
        | none => (none, false, none)
        | some origText =>
          match PRICE_PATTERNS.findSome? (fun p => (findall p origText).head?) with
          | none => (none, false, none)
          | some m0 =>
            let original_price := normalizePrice m0
            if pyDecGt original_price price then
              (some original_price, true, some (discountInt price original_price))
            else
              (some original_price, false, none)
      match DISCOUNT_PATTERNS.findSome? (fun dp => searchGroup dp par.text) with
      | some g => (fromStrike.1, true, some (natOfDigits g : Int))
      | none => fromStrike
  { product_name := el.productName.getD ("Product on " ++ url),
    price := price,
    original_price := extras.1,
    currency := extractCurrency el.text,
    is_on_sale := extras.2.1,
    discount_percent := extras.2.2,
    source_url := url }

/-- The element loop of `extract_prices`, carrying the
`found_elements` dedup set of already-processed texts. -/
def extractPricesAux (findall : String → String → List String)
    (searchGroup : String → String → Option String) (url : String) :
    List PageElement → List String → List PriceRecord
  | [], _ => []
  | el :: rest, found =>
    if el.text ∈ found then
      extractPricesAux findall searchGroup url rest found
    else
      ((PRICE_PATTERNS.map (fun pattern =>
        (findall pattern el.text).filterMap (fun m =>
          let price := normalizePrice m
          if decGt0 price then
            some (priceRecordOfMatch findall searchGroup url el price)
          else
            none))).flatten)
      ++ extractPricesAux findall searchGroup url rest (el.text :: found)

/-- `PriceMonitor.extract_prices` over the elements selected from the
page (`els` is the concatenation of the per-selector element lists, in
loop order). -/
def extractPrices (findall : String → String → List String)
    (searchGroup : String → String → Option String)
    (url : String) (els : List PageElement) : List PriceRecord :=
  extractPricesAux findall searchGroup url els []

/-! Model of the per-record price-change decision of
`PriceMonitor.process_prices`.  Prices are exact rationals; the float
conversion `float((new - old) / old * 100)` is modelled exactly, and
the float threshold `self.price_change_threshold * 100`
(`0.01 * 100`, which is exactly `1.0` in IEEE-754 doubles) is the
exact rational `1/100 * 100`. -/

inductive PriceChangeType
  | increase
  | decrease
  | new
deriving DecidableEq

inductive AlertSeverity
  | high
  | medium
deriving DecidableEq

/-- What `process_prices` does with one extracted record: create a
first-ever record, count it unchanged, or emit a price alert. -/
inductive PriceOutcome
  | newProduct
  | unchanged
  | alerted (change_type : PriceChangeType) (change_percent : ℚ)
      (recorded : ℚ) (severity : AlertSeverity)
deriving DecidableEq

/-- `Decimal(str(round(x, 2)))`: rounding half-to-even at two decimal
places, modelled exactly on the rational value. -/
def roundHalfEven2 (q : ℚ) : ℚ :=
  let x := q * 100
  let f := Int.floor x
  let r := x - f
  let n : Int :=
    if r < 1 / 2 then f
    else if 1 / 2 < r then f + 1
    else if f % 2 = 0 then f else f + 1
  (n : ℚ) / 100

/-- The decision taken by `process_prices` for one product, given the
last-known price (`none` when the product is new) and the newly
observed price. -/
def processPriceDecision (old : Option ℚ) (new_price_val : ℚ) : PriceOutcome :=
  match old with
  | none => PriceOutcome.newProduct
  | some old_price =>
    if old_price ≠ new_price_val then
      let change_percent := (new_price_val - old_price) / old_price * 100
      if |change_percent| ≥ (1 : ℚ) / 100 * 100 then
        PriceOutcome.alerted
          (if 0 < change_percent then PriceChangeType.increase
           else PriceChangeType.decrease)
          change_percent
          (roundHalfEven2 change_percent)
          (if 10 < |change_percent| then AlertSeverity.high
           else AlertSeverity.medium)
      else
        PriceOutcome.unchanged
    else
      PriceOutcome.unchanged

lemma extractPricesAux_pos (findall : String → String → List String)
    (searchGroup : String → String → Option String) (url : String) :
    ∀ (els : List PageElement) (found : List String)
      (r : PriceRecord), r ∈ extractPricesAux findall searchGroup url els found →
      decGt0 r.price = true := by
  intro els
  induction els with
  | nil =>
    intro found r hr
    simp [extractPricesAux] at hr
  | cons el rest ih =>
    intro found r hr
    rw [extractPricesAux] at hr
    by_cases hm : el.text ∈ found
    · rw [if_pos hm] at hr
      exact ih found r hr
    · rw [if_neg hm] at hr
      rcases List.mem_append.1 hr with hl | hrest
      · rcases List.mem_flatten.1 hl with ⟨sub, hsub, hrs⟩
        rcases List.mem_map.1 hsub with ⟨pat, _, hpat⟩
        subst hpat
        rcases List.mem_filterMap.1 hrs with ⟨m, _, hsome⟩
        by_cases hg : decGt0 (normalizePrice m) = true
        · simp only [hg, if_true] at hsome
          cases hsome
          exact hg
        · simp [hg] at hsome
      · exact ih (el.text :: found) r hrest

/-- **C10** Price parsing is total and filtered: `normalize_price`
either returns the successfully parsed Decimal of the cleaned string
or falls back to `Decimal(0)` (the bare `except` swallows every parse
failure), and every record returned by `extract_prices` carries a
strictly positive price (`price > 0` guards every append). -/
theorem c10_price_parsing_safety :
    (∀ s : String,
      normalizePrice s = PyDec.num 0 ∨
        ∃ d, decimalParse (cleanPrice s) = some d ∧ normalizePrice s = d) ∧
    (∀ (findall : String → String → List String)
       (searchGroup : String → String → Option String)
       (url : String) (els : List PageElement) (r : PriceRecord),
      r ∈ extractPrices findall searchGroup url els →
      decGt0 r.price = true) := by
  constructor
  · intro s
    cases h : decimalParse (cleanPrice s) with
    | none => left; simp [normalizePrice, h]
    | some d => right; exact ⟨d, rfl, by simp [normalizePrice, h]⟩
  · intro findall searchGroup url els r hr
    exact extractPricesAux_pos findall searchGroup url els [] r hr

def c10Findall : String → String → List String :=
  fun _ t => if t = "$19.99" then ["19.99"] else []

def c10Search : String → String → Option String :=
  fun _ _ => none

def c10El : PageElement :=
  { text := "$19.99", parent := none, productName := none }

def c10Rec : PriceRecord :=
  { product_name := "Product on http://shop.example"
    price := PyDec.num (1999 / 100)
    original_price := none
    currency := "USD"
    is_on_sale := false
    discount_percent := none
    source_url := "http://shop.example" }

unseal Rat.mul Rat.inv Rat.add Rat.sub in
theorem c10_price_parsing_safety_witness :
    c10Rec ∈ extractPrices c10Findall c10Search "http://shop.example" [c10El] ∧
      decGt0 c10Rec.price = true :=
  ⟨by decide,
   c10_price_parsing_safety.2 c10Findall c10Search "http://shop.example" [c10El]
     c10Rec (by decide)⟩

unseal Rat.mul Rat.inv Rat.add Rat.sub in
/-- **C9 counterexample** At a relative delta of exactly 1% — old
price 100, new price 101 — the code still emits an alert, because the
comparison is `abs(change_percent) >= self.price_change_threshold *
100`, i.e. at-least, not strictly-exceeds as the claim says. -/
theorem c9_threshold_boundary_counterexample :
    processPriceDecision (some 100) 101 =
      PriceOutcome.alerted PriceChangeType.increase 1 1 AlertSeverity.medium ∧
    |((101 : ℚ) - 100) / 100 * 100| = 1 := by
  constructor
  · decide
  · norm_num

unseal Rat.mul Rat.inv Rat.add Rat.sub in
/-- **C9** (amended to `≥`): for a tracked product with last-known
price `o ≠ 0` and observed price `n`, an alert is emitted exactly
when the price differs and the absolute relative delta is at least
the 1% threshold; every emitted alert carries the exact relative
`change_percent`, its half-even two-decimal rounding as the recorded
value, and a `change_type` matching the sign.  Concretely,
19.99 → 24.99 emits an increase with `change_percent = 50000/1999`
(within 0.1 of 25) recorded as 25.01, and 19.99 → 20.00 is counted
unchanged. -/
theorem c9_price_change_decision :
    (∀ (o n : ℚ), o ≠ 0 →
      ((∃ ct cp rec sev,
          processPriceDecision (some o) n = PriceOutcome.alerted ct cp rec sev) ↔
        (o ≠ n ∧ 1 ≤ |(n - o) / o * 100|)) ∧
      (∀ ct cp rec sev,
        processPriceDecision (some o) n = PriceOutcome.alerted ct cp rec sev →
        cp = (n - o) / o * 100 ∧
        rec = roundHalfEven2 cp ∧
        (ct = PriceChangeType.increase ↔ 0 < cp) ∧
        (ct = PriceChangeType.decrease ↔ cp < 0))) ∧
    processPriceDecision (some (1999 / 100)) (2499 / 100) =
      PriceOutcome.alerted PriceChangeType.increase (50000 / 1999) (2501 / 100)
        AlertSeverity.high ∧
    |(50000 : ℚ) / 1999 - 25| < 1 / 10 ∧
    processPriceDecision (some (1999 / 100)) (2000 / 100) =
      PriceOutcome.unchanged := by
  have h1 : ((1 : ℚ) / 100 * 100) = 1 := by norm_num
  refine ⟨?_, by decide, by decide, by decide⟩
  intro o n _
  by_cases hne : o ≠ n
  · by_cases hth : (1 : ℚ) ≤ |(n - o) / o * 100|
    · have hd : processPriceDecision (some o) n =
          PriceOutcome.alerted
            (if 0 < (n - o) / o * 100 then PriceChangeType.increase
             else PriceChangeType.decrease)
            ((n - o) / o * 100)
            (roundHalfEven2 ((n - o) / o * 100))
            (if 10 < |(n - o) / o * 100| then AlertSeverity.high
             else AlertSeverity.medium) := by
        simp only [processPriceDecision, h1]
        rw [if_pos hne, if_pos hth]
      constructor
      · exact iff_of_true ⟨_, _, _, _, hd⟩ ⟨hne, hth⟩
      · intro ct cp rec sev h
        rw [hd] at h
        injection h with hct hcp hrec hsev
        subst hcp
        refine ⟨rfl, hrec.symm, ?_, ?_⟩
        · by_cases hpos : 0 < (n - o) / o * 100
          · rw [if_pos hpos] at hct
            exact iff_of_true hct.symm hpos
          · rw [if_neg hpos] at hct
            subst hct
            exact iff_of_false (by simp) hpos
        · have hne0 : (n - o) / o * 100 ≠ 0 := by
            intro h0
            rw [h0, abs_zero] at hth
            linarith
          by_cases hpos : 0 < (n - o) / o * 100
          · rw [if_pos hpos] at hct
            subst hct
            exact iff_of_false (by simp) (by linarith)
          · rw [if_neg hpos] at hct
            exact iff_of_true hct.symm
              (lt_of_le_of_ne (not_lt.1 hpos) hne0)
    · have hd : processPriceDecision (some o) n = PriceOutcome.unchanged := by
        simp only [processPriceDecision, h1]
        rw [if_pos hne, if_neg hth]
      constructor
      · refine iff_of_false ?_ (fun hc => hth hc.2)
        rintro ⟨ct, cp, rec, sev, h⟩
        rw [hd] at h
        exact PriceOutcome.noConfusion h
      · intro ct cp rec sev h
        rw [hd] at h
        exact PriceOutcome.noConfusion h
  · have hd : processPriceDecision (some o) n = PriceOutcome.unchanged := by
      simp only [processPriceDecision]
      rw [if_neg hne]
    constructor
    · refine iff_of_false ?_ (fun hc => hne hc.1)
      rintro ⟨ct, cp, rec, sev, h⟩
      rw [hd] at h
      exact PriceOutcome.noConfusion h
    · intro ct cp rec sev h
      rw [hd] at h
      exact PriceOutcome.noConfusion h

theorem c9_price_change_decision_witness :
    ((2 : ℚ) ≠ 0) ∧
    ((∃ ct cp rec sev,
        processPriceDecision (some 2) 3 = PriceOutcome.alerted ct cp rec sev) ↔
      ((2 : ℚ) ≠ 3 ∧ 1 ≤ |((3 : ℚ) - 2) / 2 * 100|)) :=
  ⟨by norm_num, (c9_price_change_decision.1 2 3 (by norm_num)).1⟩

/-! ## `urllib.parse` (CPython 3.11) and `URLNormalizer`

A character-level model of the parts of `urllib.parse` reached by
`URLNormalizer.normalize`: `urlparse`/`urlsplit`, `parse_qs`,
`urlencode(..., doseq=True)` with `quote_plus`, and `urlunparse` with
empty params (= `urlunsplit`).  `str` is `List Char`; `%`-escapes
decode through an explicit UTF-8 decoder with U+FFFD replacement
(maximal-subpart policy, as CPython's `errors='replace'`).  Two
corners raise `ValueError` in Python and are modelled as `none`:
bracketed netlocs (the model rejects all of them, including valid
IPv6 literals, which `_check_bracketed_host` would accept) and
non-ASCII netlocs (whose NFKC check may actually pass); neither
corner is exercised by any theorem below. -/

def scheme_chars : List Char :=
  "abcdefghijklmnopqrstuvwxyzABCDEFGHIJKLMNOPQRSTUVWXYZ0123456789+-.".data

def uses_params : List String :=
  ["", "ftp", "hdl", "prospero", "http", "imap", "https", "shttp", "rtsp",
   "rtsps", "rtspu", "sip", "sips", "mms", "sftp", "tel"]

def uses_netloc : List String :=
  ["", "ftp", "http", "gopher", "nntp", "telnet", "imap", "wais", "file",
   "mms", "https", "shttp", "snews", "prospero", "rtsp", "rtsps", "rtspu",
   "rsync", "svn", "svn+ssh", "sftp", "nfs", "git", "git+ssh", "ws", "wss"]

/-- `_WHATWG_C0_CONTROL_OR_SPACE`: C0 controls and the space. -/
def isC0ControlOrSpace (c : Char) : Bool := c.toNat ≤ 32

/-- `_UNSAFE_URL_BYTES_TO_REMOVE`: tab, CR, LF. -/
def isUnsafeUrlByte (c : Char) : Bool := c = '\t' || c = '\r' || c = '\n'

/-- `_splitnetloc(url, 2)` applied after dropping the two slashes:
split at the first of `/?#`. -/
def splitnetloc (l : List Char) : List Char × List Char :=
  let delim := l.findIdx (fun c => c = '/' || c = '?' || c = '#')
  (l.take delim, l.drop delim)

/-- `s.split(ch, 1)` when `ch` occurs, identity-with-empty-tail
otherwise (callers guard on occurrence exactly as the source does). -/
def splitFirst (ch : Char) (l : List Char) : List Char × List Char :=
  match l.findIdx? (fun c => c = ch) with
  | some i => (l.take i, l.drop (i + 1))
  | none => (l, [])

structure SplitResult where
  scheme : String
  netloc : String
  url : String
  query : String
  fragment : String
deriving DecidableEq

/-- `urllib.parse.urlsplit(url)` with default scheme and
`allow_fragments=True`; `none` models a raised `ValueError`. -/
def urlsplit (urlIn : String) : Option SplitResult :=
  let url0 := (urlIn.data.dropWhile isC0ControlOrSpace).filter
    (fun c => ¬ isUnsafeUrlByte c)
  let su : List Char × List Char :=
    match url0.findIdx? (fun c => c = ':') with
    | some i =>
      if 0 < i ∧ (match url0.head? with
          | some c => c.isAlpha
          | none => false) = true ∧
          (url0.take i).all (fun c => scheme_chars.contains c) then
        ((pyLower ⟨url0.take i⟩).data, url0.drop (i + 1))
      else ([], url0)
    | none => ([], url0)
  let scheme := su.1
  let url1 := su.2
  let nu : List Char × List Char :=
    if url1.take 2 = ['/', '/'] then splitnetloc (url1.drop 2)
    else ([], url1)
  let netloc := nu.1
  if '[' ∈ netloc ∨ ']' ∈ netloc then
    none
  else if ¬ netloc.all (fun c => c.toNat < 128) then
    none
  else
    let fu := splitFirst '#' nu.2
    let qu := splitFirst '?' fu.1
    some ⟨⟨scheme⟩, ⟨netloc⟩, ⟨qu.1⟩, ⟨qu.2⟩, ⟨fu.2⟩⟩

/-- Index of the last occurrence of `ch` (callers guard occurrence). -/
def lastIdxOf (ch : Char) (l : List Char) : Nat :=
  l.length - 1 - l.reverse.findIdx (fun c => c = ch)

/-- `url.find(ch, start)` as an option. -/
def findFrom (p : Char → Bool) (l : List Char) (start : Nat) : Option Nat :=
  ((l.drop start).findIdx? p).map (· + start)

/-- `urllib.parse._splitparams`. -/
def splitparams (l : List Char) : List Char × List Char :=
  if '/' ∈ l then
    match findFrom (fun c => c = ';') l (lastIdxOf '/' l) with
    | none => (l, [])
    | some i => (l.take i, l.drop (i + 1))
  else
    match l.findIdx? (fun c => c = ';') with
    | some i => (l.take i, l.drop (i + 1))
    | none => (l, [])

structure ParseResult where
  scheme : String
  netloc : String
  path : String
  params : String
  query : String
  fragment : String
deriving DecidableEq

/-- `urllib.parse.urlparse(url)`. -/
def urlparse (urlIn : String) : Option ParseResult :=
  (urlsplit urlIn).map (fun r =>
    if r.scheme ∈ uses_params ∧ ';' ∈ r.url.data then
      let pp := splitparams r.url.data
      ⟨r.scheme, r.netloc, ⟨pp.1⟩, ⟨pp.2⟩, r.query, r.fragment⟩
    else
      ⟨r.scheme, r.netloc, r.url, "", r.query, r.fragment⟩)

/-- Value of an ASCII hex digit. -/
def hexVal (c : Char) : Option Nat :=
  if c.isDigit then some (c.toNat - 48)
  else if 'a' ≤ c ∧ c ≤ 'f' then some (c.toNat - 87)
  else if 'A' ≤ c ∧ c ≤ 'F' then some (c.toNat - 55)
  else none

/-- UTF-8 continuation byte. -/
def contB (b : Nat) : Bool := 0x80 ≤ b && b ≤ 0xBF

/-- `bytes.decode('utf-8', errors='replace')`: each maximal subpart
of an ill-formed sequence becomes one U+FFFD. -/
def utf8DecodeReplace : List Nat → List Char
  | [] => []
  | b :: rest =>
    if b < 0x80 then Char.ofNat b :: utf8DecodeReplace rest
    else if 0xC2 ≤ b && b ≤ 0xDF then
      match rest with
      | b2 :: rest2 =>
        if contB b2 then
          Char.ofNat ((b - 0xC0) * 64 + (b2 - 0x80)) :: utf8DecodeReplace rest2
        else Char.ofNat 0xFFFD :: utf8DecodeReplace (b2 :: rest2)
      | [] => [Char.ofNat 0xFFFD]
    else if 0xE0 ≤ b && b ≤ 0xEF then
      match rest with
      | b2 :: rest2 =>
        if (b = 0xE0 && 0xA0 ≤ b2 && b2 ≤ 0xBF) ||
           (b = 0xED && 0x80 ≤ b2 && b2 ≤ 0x9F) ||
           (¬ b = 0xE0 && ¬ b = 0xED && contB b2) then
          match rest2 with
          | b3 :: rest3 =>
            if contB b3 then
              Char.ofNat ((b - 0xE0) * 4096 + (b2 - 0x80) * 64 + (b3 - 0x80)) ::
                utf8DecodeReplace rest3
            else Char.ofNat 0xFFFD :: utf8DecodeReplace (b3 :: rest3)
          | [] => [Char.ofNat 0xFFFD]
        else Char.ofNat 0xFFFD :: utf8DecodeReplace (b2 :: rest2)
      | [] => [Char.ofNat 0xFFFD]
    else if 0xF0 ≤ b && b ≤ 0xF4 then
      match rest with
      | b2 :: rest2 =>
        if (b = 0xF0 && 0x90 ≤ b2 && b2 ≤ 0xBF) ||
           (b = 0xF4 && 0x80 ≤ b2 && b2 ≤ 0x8F) ||
           (¬ b = 0xF0 && ¬ b = 0xF4 && contB b2) then
          match rest2 with
          | b3 :: rest3 =>
            if contB b3 then
              match rest3 with
              | b4 :: rest4 =>
                if contB b4 then
                  Char.ofNat ((b - 0xF0) * 262144 + (b2 - 0x80) * 4096 +
                      (b3 - 0x80) * 64 + (b4 - 0x80)) :: utf8DecodeReplace rest4
                else Char.ofNat 0xFFFD :: utf8DecodeReplace (b4 :: rest4)
              | [] => [Char.ofNat 0xFFFD]
            else Char.ofNat 0xFFFD :: utf8DecodeReplace (b3 :: rest3)
          | [] => [Char.ofNat 0xFFFD]
        else Char.ofNat 0xFFFD :: utf8DecodeReplace (b2 :: rest2)
      | [] => [Char.ofNat 0xFFFD]
    else Char.ofNat 0xFFFD :: utf8DecodeReplace rest
termination_by l => l.length
decreasing_by all_goals (simp only [List.length_cons]; omega)

/-- Consume a maximal run of valid `%XX` escapes, returning the bytes
and the remainder. -/
def grabEscapedBytes : List Char → List Nat × List Char
  | '%' :: c1 :: c2 :: rest =>
    match hexVal c1, hexVal c2 with
    | some h1, some h2 =>
      let r := grabEscapedBytes rest
      ((16 * h1 + h2) :: r.1, r.2)
    | _, _ => ([], '%' :: c1 :: c2 :: rest)
  | l => ([], l)

lemma grabEscapedBytes_length (l : List Char) :
    (grabEscapedBytes l).2.length ≤ l.length := by
  induction l using grabEscapedBytes.induct with
  | case1 c1 c2 rest h1 h2 hv2 hv1 ih =>
    rw [grabEscapedBytes, hv1, hv2]
    simp only [List.length_cons]
    omega
  | case2 c1 c2 rest hne =>
    rw [grabEscapedBytes.eq_def]
    split
    · rename_i c1' c2' rest' heq
      injection heq with h0 heq1
      injection heq1 with h1eq heq2
      injection heq2 with h2eq h3eq
      subst h1eq
      subst h2eq
      subst h3eq
      split
      · rename_i h1 h2 hv1 hv2
        exact (hne h1 h2 hv1 hv2).elim
      · simp
    · simp
  | case3 l hne =>
    rw [grabEscapedBytes.eq_def]
    split
    · rename_i x c1 c2 rest
      exact (hne c1 c2 rest rfl).elim
    · simp

/-- `urllib.parse.unquote` restricted to character-level input: runs
of valid `%XX` escapes are decoded as UTF-8 with replacement; all
other characters pass through (equivalent to CPython's
split-and-decode for ASCII text around the escapes). -/
def unquoteChars : List Char → List Char
  | [] => []
  | '%' :: c1 :: c2 :: rest =>
    (match hexVal c1, hexVal c2 with
     | some h1, some h2 =>
       let r := grabEscapedBytes rest
       utf8DecodeReplace ((16 * h1 + h2) :: r.1) ++ unquoteChars r.2
     | _, _ => '%' :: unquoteChars (c1 :: c2 :: rest))
  | c :: rest => c :: unquoteChars rest
termination_by l => l.length
decreasing_by
  · have := grabEscapedBytes_length rest
    simp only [List.length_cons]
    omega
  · simp only [List.length_cons]
    omega
  · simp only [List.length_cons]
    omega

/-- `unquote(s)`: fast path when no `%` occurs. -/
def pyUnquote (s : String) : String :=
  if '%' ∈ s.data then ⟨unquoteChars s.data⟩ else s

/-- The always-safe characters of `urllib.parse.quote`
(RFC 3986 unreserved). -/
def alwaysSafe : List Char :=
  "abcdefghijklmnopqrstuvwxyzABCDEFGHIJKLMNOPQRSTUVWXYZ0123456789_.-~".data

/-- Uppercase hex digit, as `quote` emits. -/
def hexDigitUpper (n : Nat) : Char :=
  if n < 10 then Char.ofNat (48 + n) else Char.ofNat (55 + n)

/-- `quote_from_bytes(bs, safe)`: every byte neither always-safe nor
in `safe` (safe is filtered to ASCII) becomes `%XX`. -/
def quoteFromBytes (safe : List Char) (bs : List Nat) : List Char :=
  (bs.map (fun b =>
    if b < 128 ∧ (Char.ofNat b ∈ alwaysSafe ∨ Char.ofNat b ∈ safe) then
      [Char.ofNat b]
    else
      ['%', hexDigitUpper (b / 16), hexDigitUpper (b % 16)])).flatten

/-- `quote(s, safe)` with UTF-8 encoding. -/
def pyQuote (safe : List Char) (s : String) : String :=
  ⟨quoteFromBytes safe (utf8Encode s)⟩

/-- `quote_plus(s)` with `safe=''`. -/
def quote_plus (s : String) : String :=
  if ¬ ' ' ∈ s.data then pyQuote [] s
  else ⟨(pyQuote [' '] s).data.map (fun c => if c = ' ' then '+' else c)⟩

/-- The body of the `parse_qsl` loop for one `name_value` chunk:
skip empty chunks and chunks without `=` or with an empty value;
otherwise replace `+` by space and unquote name and value. -/
def qslChunk (nv : List Char) : Option (String × String) :=
  if nv = [] then none
  else
    match nv.findIdx? (fun c => c = '=') with
    | none => none
    | some i =>
      let n := nv.take i
      let v := nv.drop (i + 1)
      if v ≠ [] then
        some (pyUnquote ⟨n.map (fun c => if c = '+' then ' ' else c)⟩,
              pyUnquote ⟨v.map (fun c => if c = '+' then ' ' else c)⟩)
      else none

/-- `parse_qsl(qs)` with default arguments (`keep_blank_values=False`,
separator `&`). -/
def parse_qsl (qs : String) : List (String × String) :=
  if qs.data = [] then []
  else (splitChar '&' qs.data).filterMap qslChunk

/-- Appending one parsed pair to the `parse_qs` dict (insertion
order, values accumulated per key). -/
def dictAdd (d : List (String × List String)) (k : String) (v : String) :
    List (String × List String) :=
  if d.any (fun kv => kv.1 = k) then
    d.map (fun kv => if kv.1 = k then (kv.1, kv.2 ++ [v]) else kv)
  else d ++ [(k, [v])]

/-- `parse_qs(qs)` as an insertion-ordered association list. -/
def parse_qs (qs : String) : List (String × List String) :=
  (parse_qsl qs).foldl (fun d kv => dictAdd d kv.1 kv.2) []

/-- `URLNormalizer.STRIP_PARAMS`. -/
def STRIP_PARAMS : List String :=
  ["utm_source", "utm_medium", "utm_campaign", "utm_term", "utm_content",
   "fbclid", "gclid", "msclkid", "ref", "source", "mc_cid", "mc_eid",
   "sessionid", "sid", "jsessionid", "_ga", "_gid"]

/-- Lexicographic comparison by code point, Python's `str <`. -/
def lexLe : List Char → List Char → Bool
  | [], _ => true
  | _ :: _, [] => false
  | a :: as, b :: bs => if a = b then lexLe as bs else decide (a < b)

/-- `sorted(filtered_params.items())`: dict keys are distinct, so the
tuple comparison never goes past the key. -/
def sortPairs (l : List (String × List String)) : List (String × List String) :=
  l.mergeSort (fun a b => lexLe a.1.data b.1.data)

/-- `urlencode(items, doseq=True)` with the default `quote_plus`. -/
def urlencodeDoseq (items : List (String × List String)) : String :=
  String.intercalate "&"
    ((items.map (fun kv =>
      kv.2.map (fun v => quote_plus kv.1 ++ "=" ++ quote_plus v))).flatten)

/-- `s.endswith(suf)`. -/
def strEndsWith (suf s : String) : Bool :=
  subAt suf.data.reverse s.data.reverse

/-- `urllib.parse.urlunsplit`, which `urlunparse` reduces to when
`params` is empty. -/
def urlunsplit (scheme netloc url query fragment : String) : String :=
  let url1 :=
    if ¬ netloc.data = [] ∨
        (¬ scheme.data = [] ∧ scheme ∈ uses_netloc ∧
          url.data.take 2 ≠ ['/', '/']) then
      let url2 := if ¬ url.data = [] ∧ url.data.take 1 ≠ ['/'] then
          "/" ++ url
        else url
      "//" ++ netloc ++ url2
    else url
  let url3 := if ¬ scheme.data = [] then scheme ++ ":" ++ url1 else url1
  let url4 := if ¬ query.data = [] then url3 ++ "?" ++ query else url3
  if ¬ fragment.data = [] then url4 ++ "#" ++ fragment else url4

/-- `URLNormalizer.normalize(url)` (no `base_url`); `none` models a
propagated `ValueError` from `urlparse`. -/
def normalize (url : String) : Option String :=
  match urlparse url with
  | none => none
  | some parsed =>
    let scheme := pyLower parsed.scheme
    let netloc0 := pyLower parsed.netloc
    let netloc :=
      if strEndsWith ":80" netloc0 ∧ scheme = "http" then
        ⟨netloc0.data.take (netloc0.data.length - 3)⟩
      else if strEndsWith ":443" netloc0 ∧ scheme = "https" then
        ⟨netloc0.data.take (netloc0.data.length - 4)⟩
      else netloc0
    let path0 := parsed.path
    let path1 := if path0.data = [] then "/" else path0
    let path : String :=
      if ¬ path1 = "/" ∧ strEndsWith "/" path1 then
        ⟨(path1.data.reverse.dropWhile (fun c => c = '/')).reverse⟩
      else path1
    let query_params := parse_qs parsed.query
    let filtered_params := query_params.filter
      (fun kv => ¬ pyLower kv.1 ∈ STRIP_PARAMS)
    let query :=
      if ¬ filtered_params = [] then urlencodeDoseq (sortPairs filtered_params)
      else ""
    some (urlunsplit scheme netloc path query "")

/-- **C5** Normalization is not idempotent: on `"http://ex.com//"`
the first pass rstrips the slash-only path to the empty string
(the empty-path default runs before the rstrip), yielding
`"http://ex.com"`, and a second pass turns the now-empty path into
`"/"`, yielding `"http://ex.com/"`.  So
`normalize (normalize u) ≠ normalize u`. -/
theorem c5_normalize_not_idempotent :
    normalize "http://ex.com//" = some "http://ex.com" ∧
    normalize "http://ex.com" = some "http://ex.com/" ∧
    (normalize "http://ex.com//").bind normalize ≠ normalize "http://ex.com//" := by
  exact ⟨by decide, by decide, by decide⟩

/-! Auxiliary lemmas for symbolic evaluation of `urlsplit` on
well-formed component URLs. -/

lemma findIdxq_append_ff {p : Char → Bool} (l₁ l₂ : List Char) (i : Nat)
    (h : ∀ c ∈ l₁, p c = false) :
    List.findIdx? p (l₁ ++ l₂) i = List.findIdx? p l₂ (i + l₁.length) := by
  induction l₁ generalizing i with
  | nil => simp
  | cons a l ih =>
    have ha : p a = false := h a (by simp)
    simp only [List.cons_append, List.findIdx?_cons, ha, Bool.false_eq_true,
      if_false]
    rw [ih (i + 1) (fun c hc => h c (List.mem_cons_of_mem _ hc))]
    congr 1
    simp only [List.length_cons]
    omega

lemma findIdxq_cons_true {p : Char → Bool} (c : Char) (l : List Char) (i : Nat)
    (h : p c = true) : List.findIdx? p (c :: l) i = some i := by
  simp [List.findIdx?_cons, h]

lemma findIdxq_eq_none {p : Char → Bool} (l : List Char) (i : Nat)
    (h : ∀ c ∈ l, p c = false) : List.findIdx? p l i = none := by
  induction l generalizing i with
  | nil => simp
  | cons a t ih =>
    simp only [List.findIdx?_cons, h a (by simp), Bool.false_eq_true, if_false]
    exact ih (i + 1) (fun c hc => h c (List.mem_cons_of_mem _ hc))

lemma findIdx_append_ff {p : Char → Bool} (l₁ l₂ : List Char)
    (h : ∀ c ∈ l₁, p c = false) :
    List.findIdx p (l₁ ++ l₂) = l₁.length + List.findIdx p l₂ := by
  induction l₁ with
  | nil => simp
  | cons a l ih =>
    have ha : p a = false := h a (by simp)
    simp only [List.cons_append, List.findIdx_cons, ha, cond_false,
      ih (fun c hc => h c (List.mem_cons_of_mem _ hc)), List.length_cons]
    omega

lemma subAt_mem {pat l : List Char} (h : subAt pat l = true) :
    ∀ c ∈ pat, c ∈ l := by
  induction pat generalizing l with
  | nil => simp
  | cons a as ih =>
    cases l with
    | nil => simp [subAt] at h
    | cons b bs =>
      simp only [subAt, Bool.and_eq_true, decide_eq_true_eq] at h
      intro c hc
      rcases List.mem_cons.1 hc with hc | hc
      · subst hc
        rw [h.1]
        exact List.mem_cons_self _ _
      · exact List.mem_cons_of_mem _ (ih h.2 c hc)

lemma subAt_single (c : Char) (l : List Char) :
    subAt [c] l = true ↔ l.head? = some c := by
  cases l with
  | nil => simp [subAt]
  | cons b bs => simp [subAt, eq_comm]

lemma toLower_eq_colon {c : Char} (h : Char.toLower c = ':') : c = ':' := by
  by_cases hn : 65 ≤ c.toNat ∧ c.toNat ≤ 90
  · exfalso
    have h2 : (Char.toLower c).toNat = c.toNat + 32 := by
      simp only [Char.toLower]
      rw [if_pos ⟨hn.1, hn.2⟩]
      rw [Char.ofNat, dif_pos (Or.inl (by omega : c.toNat + 32 < 55296))]
      simp [Char.ofNatAux, Char.toNat, UInt32.toNat, BitVec.toNat_ofNatLt]
    rw [h] at h2
    have h58 : (':' : Char).toNat = 58 := rfl
    omega
  · simp only [Char.toLower] at h
    rwa [if_neg hn] at h

/-- Characters we allow in the host component for the amended C6
statement: ASCII other than the URL delimiters treated specially by
`urlsplit` and `normalize`. -/
def hostOkChar (c : Char) : Bool :=
  c.toNat < 128 &&
    !(c = ':' || c = '/' || c = '?' || c = '#' || c = '[' || c = ']' ||
      c = '\t' || c = '\r' || c = '\n')

/-- Characters we allow in the path component: anything except the
query/fragment/params delimiters and the removed bytes. -/
def pathOkChar (c : Char) : Bool :=
  !(c = '?' || c = '#' || c = ';' || c = '\t' || c = '\r' || c = '\n')

/-- Characters we allow in the query component: anything except the
fragment delimiter and the removed bytes. -/
def queryOkChar (c : Char) : Bool :=
  !(c = '#' || c = '\t' || c = '\r' || c = '\n')

/-- A URL assembled from scheme, host, absolute path and optional
query. -/
def mkUrl (s h p q : String) : String :=
  s ++ "://" ++ h ++ p ++ (if q.data = [] then "" else "?" ++ q)

/-- The path treatment of `normalize` for a nonempty path: strip all
trailing slashes unless the path is exactly `/`. -/
def pathNorm (p : String) : String :=
  if ¬ p = "/" ∧ strEndsWith "/" p then
    ⟨(p.data.reverse.dropWhile (fun c => c = '/')).reverse⟩
  else p

/-- The query treatment of `normalize`: parse, drop tracking keys,
sort, re-encode. -/
def queryNorm (q : String) : String :=
  let filtered := (parse_qs q).filter (fun kv => ¬ pyLower kv.1 ∈ STRIP_PARAMS)
  if ¬ filtered = [] then urlencodeDoseq (sortPairs filtered) else ""

lemma hostOkChar_spec {c : Char} (h : hostOkChar c = true) :
    c.toNat < 128 ∧ ¬ c = ':' ∧ ¬ c = '/' ∧ ¬ c = '?' ∧ ¬ c = '#' ∧
      ¬ c = '[' ∧ ¬ c = ']' ∧ isUnsafeUrlByte c = false := by
  simp only [hostOkChar, Bool.and_eq_true, Bool.not_eq_true', Bool.or_eq_false_iff,
    decide_eq_false_iff_not, decide_eq_true_eq, isUnsafeUrlByte] at h ⊢
  tauto

lemma pathOkChar_spec {c : Char} (h : pathOkChar c = true) :
    ¬ c = '?' ∧ ¬ c = '#' ∧ ¬ c = ';' ∧ isUnsafeUrlByte c = false := by
  simp only [pathOkChar, Bool.not_eq_true', Bool.or_eq_false_iff,
    decide_eq_false_iff_not, isUnsafeUrlByte] at h ⊢
  tauto

lemma queryOkChar_spec {c : Char} (h : queryOkChar c = true) :
    ¬ c = '#' ∧ isUnsafeUrlByte c = false := by
  simp only [queryOkChar, Bool.not_eq_true', Bool.or_eq_false_iff,
    decide_eq_false_iff_not, isUnsafeUrlByte] at h ⊢
  tauto

/-- The optional `?query` suffix of `mkUrl`, as characters. -/
def qTail (q : String) : List Char :=
  if q.data = [] then [] else '?' :: q.data

lemma urlsplit_mkUrl (s h p q : String)
    (hs1 : s.data ≠ [])
    (hsC : ∀ c ∈ s.data, isC0ControlOrSpace c = false ∧
      isUnsafeUrlByte c = false ∧ ¬ c = ':' ∧ scheme_chars.contains c = true)
    (hsA : (match s.data.head? with
      | some c => c.isAlpha
      | none => false) = true)
    (hh : ∀ c ∈ h.data, hostOkChar c = true)
    (hp0 : p.data.head? = some '/')
    (hp : ∀ c ∈ p.data, pathOkChar c = true)
    (hq : ∀ c ∈ q.data, queryOkChar c = true) :
    urlsplit (mkUrl s h p q) = some ⟨pyLower s, h, p, q, ""⟩ := by
  obtain ⟨c0, cs, hsd⟩ : ∃ c0 cs, s.data = c0 :: cs := by
    cases hsdd : s.data with
    | nil => exact absurd hsdd hs1
    | cons a t => exact ⟨a, t, rfl⟩
  obtain ⟨pt, hpd⟩ : ∃ pt, p.data = '/' :: pt := by
    cases hpdd : p.data with
    | nil => simp [hpdd] at hp0
    | cons a t =>
      rw [hpdd] at hp0
      simp only [List.head?_cons, Option.some.injEq] at hp0
      exact ⟨t, by rw [hp0]⟩
  have hdata : (mkUrl s h p q).data =
      s.data ++ ':' :: '/' :: '/' :: (h.data ++ (p.data ++ qTail q)) := by
    have hk : ("://" : String).data = [':', '/', '/'] := rfl
    by_cases hqe : q.data = []
    · simp [mkUrl, qTail, hqe, String.data_append, hk]
    · simp [mkUrl, qTail, hqe, String.data_append, hk]
  have hUnsafeAll : ∀ a ∈ s.data ++ ':' :: '/' :: '/' ::
      (h.data ++ (p.data ++ qTail q)), isUnsafeUrlByte a = false := by
    intro a ha
    rcases List.mem_append.1 ha with h1 | h1
    · exact (hsC a h1).2.1
    · rcases List.mem_cons.1 h1 with h2 | h2
      · subst h2; decide
      · rcases List.mem_cons.1 h2 with h3 | h3
        · subst h3; decide
        · rcases List.mem_cons.1 h3 with h4 | h4
          · subst h4; decide
          · rcases List.mem_append.1 h4 with h5 | h5
            · exact (hostOkChar_spec (hh a h5)).2.2.2.2.2.2.2
            · rcases List.mem_append.1 h5 with h6 | h6
              · exact (pathOkChar_spec (hp a h6)).2.2.2
              · unfold qTail at h6
                by_cases hqe : q.data = []
                · rw [if_pos hqe] at h6
                  simp at h6
                · rw [if_neg hqe] at h6
                  rcases List.mem_cons.1 h6 with h7 | h7
                  · subst h7; decide
                  · exact (queryOkChar_spec (hq a h7)).2
  have hclean : ((mkUrl s h p q).data.dropWhile isC0ControlOrSpace).filter
      (fun c => ¬ isUnsafeUrlByte c) =
      s.data ++ ':' :: '/' :: '/' :: (h.data ++ (p.data ++ qTail q)) := by
    rw [hdata, hsd, List.cons_append, List.dropWhile_cons,
      if_neg (by simp [(hsC c0 (by rw [hsd]; exact List.mem_cons_self _ _)).1]),
      ← List.cons_append, ← hsd]
    rw [List.filter_eq_self.mpr]
    intro a ha
    simpa using hUnsafeAll a ha
  have hfind : List.findIdx? (fun c => c = ':')
      (s.data ++ ':' :: '/' :: '/' :: (h.data ++ (p.data ++ qTail q))) 0 =
      some s.data.length := by
    rw [findIdxq_append_ff _ _ _ (fun c hc => by simp [(hsC c hc).2.2.1]),
      findIdxq_cons_true _ _ _ (by simp)]
    simp
  have hhead : (s.data ++ ':' :: '/' :: '/' ::
      (h.data ++ (p.data ++ qTail q))).head? = some c0 := by
    rw [hsd]; rfl
  have hsA' : c0.isAlpha = true := by
    rw [hsd] at hsA
    simpa using hsA
  have htake : (s.data ++ ':' :: '/' :: '/' ::
      (h.data ++ (p.data ++ qTail q))).take s.data.length = s.data :=
    List.take_left _ _
  have hdrop : (s.data ++ ':' :: '/' :: '/' ::
      (h.data ++ (p.data ++ qTail q))).drop (s.data.length + 1) =
      '/' :: '/' :: (h.data ++ (p.data ++ qTail q)) := by
    have hre : s.data ++ ':' :: '/' :: '/' :: (h.data ++ (p.data ++ qTail q)) =
        (s.data ++ [':']) ++ '/' :: '/' :: (h.data ++ (p.data ++ qTail q)) := by
      simp
    have hlen : s.data.length + 1 = (s.data ++ [':']).length := by simp
    rw [hre, hlen, List.drop_left]
  have hsplitn : splitnetloc (h.data ++ (p.data ++ qTail q)) =
      (h.data, p.data ++ qTail q) := by
    unfold splitnetloc
    have hfi : (h.data ++ (p.data ++ qTail q)).findIdx
        (fun c => c = '/' || c = '?' || c = '#') = h.data.length := by
      rw [findIdx_append_ff _ _ (fun c hc => by
        obtain hspec := hostOkChar_spec (hh c hc)
        simp [hspec.2.2.1, hspec.2.2.2.1, hspec.2.2.2.2.1])]
      rw [hpd, List.cons_append, List.findIdx_cons]
      simp
    simp only [hfi, List.take_left, List.drop_left]
  have hfrag : splitFirst '#' (p.data ++ qTail q) = (p.data ++ qTail q, []) := by
    unfold splitFirst
    rw [findIdxq_eq_none]
    intro c hc
    rcases List.mem_append.1 hc with h1 | h1
    · simp [(pathOkChar_spec (hp c h1)).2.1]
    · unfold qTail at h1
      by_cases hqe : q.data = []
      · rw [if_pos hqe] at h1
        simp at h1
      · rw [if_neg hqe] at h1
        rcases List.mem_cons.1 h1 with h2 | h2
        · subst h2; decide
        · simp [(queryOkChar_spec (hq c h2)).1]
  have hquery : splitFirst '?' (p.data ++ qTail q) = (p.data, q.data) := by
    by_cases hqe : q.data = []
    · unfold qTail
      rw [if_pos hqe, List.append_nil]
      unfold splitFirst
      rw [findIdxq_eq_none]
      · rw [hqe]
      · intro c hc
        simp [(pathOkChar_spec (hp c hc)).1]
    · unfold qTail
      rw [if_neg hqe]
      unfold splitFirst
      rw [findIdxq_append_ff _ _ _ (fun c hc => by
          simp [(pathOkChar_spec (hp c hc)).1]),
        findIdxq_cons_true _ _ _ (by simp)]
      simp only [Nat.zero_add, List.take_left]
      have hre : p.data ++ '?' :: q.data = (p.data ++ ['?']) ++ q.data := by simp
      have hlen : p.data.length + 1 = (p.data ++ ['?']).length := by simp
      rw [hre, hlen, List.drop_left]
  have hbra : ¬ ('[' ∈ h.data ∨ ']' ∈ h.data) := by
    rintro (hm | hm)
    · exact (hostOkChar_spec (hh _ hm)).2.2.2.2.2.1 rfl
    · exact (hostOkChar_spec (hh _ hm)).2.2.2.2.2.2.1 rfl
  have hascii : h.data.all (fun c => c.toNat < 128) = true :=
    List.all_eq_true.mpr (fun c hc => by
      simpa using (hostOkChar_spec (hh c hc)).1)
  have hcond : 0 < s.data.length ∧
      (match (s.data ++ ':' :: '/' :: '/' ::
          (h.data ++ (p.data ++ qTail q))).head? with
        | some c => c.isAlpha
        | none => false) = true ∧
      ((s.data ++ ':' :: '/' :: '/' ::
          (h.data ++ (p.data ++ qTail q))).take s.data.length).all
        (fun c => scheme_chars.contains c) = true := by
    refine ⟨by rw [hsd]; simp, ?_, ?_⟩
    · rw [hhead]
      simpa using hsA'
    · rw [htake]
      exact List.all_eq_true.mpr (fun c hc => (hsC c hc).2.2.2)
  simp only [urlsplit]
  rw [hclean, hfind]
  dsimp only
  rw [if_pos hcond]
  rw [hdrop]
  dsimp only
  have htk2 : List.take 2 ('/' :: '/' :: (h.data ++ (p.data ++ qTail q))) =
      ['/', '/'] := rfl
  have hdp2 : List.drop 2 ('/' :: '/' :: (h.data ++ (p.data ++ qTail q))) =
      h.data ++ (p.data ++ qTail q) := rfl
  rw [if_pos htk2, hdp2, hsplitn]
  dsimp only
  rw [if_neg hbra, if_neg (fun hc => hc hascii)]
  rw [hfrag]
  dsimp only
  rw [hquery, htake]

lemma urlparse_mkUrl (s h p q : String)
    (hs1 : s.data ≠ [])
    (hsC : ∀ c ∈ s.data, isC0ControlOrSpace c = false ∧
      isUnsafeUrlByte c = false ∧ ¬ c = ':' ∧ scheme_chars.contains c = true)
    (hsA : (match s.data.head? with
      | some c => c.isAlpha
      | none => false) = true)
    (hh : ∀ c ∈ h.data, hostOkChar c = true)
    (hp0 : p.data.head? = some '/')
    (hp : ∀ c ∈ p.data, pathOkChar c = true)
    (hq : ∀ c ∈ q.data, queryOkChar c = true) :
    urlparse (mkUrl s h p q) = some ⟨pyLower s, h, p, "", q, ""⟩ := by
  unfold urlparse
  rw [urlsplit_mkUrl s h p q hs1 hsC hsA hh hp0 hp hq]
  dsimp only [Option.map_some']
  rw [if_neg (fun hc => absurd (hp ';' hc.2) (by decide))]

lemma colon_not_mem_pyLower (h : String)
    (hh : ∀ c ∈ h.data, hostOkChar c = true) : ':' ∉ (pyLower h).data := by
  intro hm
  simp only [pyLower, List.mem_map] at hm
  obtain ⟨c0, hc0, hlow⟩ := hm
  exact (hostOkChar_spec (hh c0 hc0)).2.1 (toLower_eq_colon hlow)

lemma normalize_mkUrl (s h p q : String)
    (hs1 : s.data ≠ [])
    (hsC : ∀ c ∈ s.data, isC0ControlOrSpace c = false ∧
      isUnsafeUrlByte c = false ∧ ¬ c = ':' ∧ scheme_chars.contains c = true)
    (hsA : (match s.data.head? with
      | some c => c.isAlpha
      | none => false) = true)
    (hsl : pyLower s = s)
    (hh : ∀ c ∈ h.data, hostOkChar c = true)
    (hp0 : p.data.head? = some '/')
    (hp : ∀ c ∈ p.data, pathOkChar c = true)
    (hq : ∀ c ∈ q.data, queryOkChar c = true) :
    normalize (mkUrl s h p q) =
      some (urlunsplit s (pyLower h) (pathNorm p) (queryNorm q) "") := by
  have hcol : ':' ∉ (pyLower h).data := colon_not_mem_pyLower h hh
  have h80 : strEndsWith ":80" (pyLower h) = false := by
    rw [Bool.eq_false_iff]
    intro hend
    exact hcol ((List.mem_reverse).1
      (subAt_mem hend ':' (by decide)))
  have h443 : strEndsWith ":443" (pyLower h) = false := by
    rw [Bool.eq_false_iff]
    intro hend
    exact hcol ((List.mem_reverse).1
      (subAt_mem hend ':' (by decide)))
  obtain ⟨pt, hpd⟩ : ∃ pt, p.data = '/' :: pt := by
    cases hpdd : p.data with
    | nil => simp [hpdd] at hp0
    | cons a t =>
      rw [hpdd] at hp0
      simp only [List.head?_cons, Option.some.injEq] at hp0
      exact ⟨t, by rw [hp0]⟩
  unfold normalize
  rw [urlparse_mkUrl s h p q hs1 hsC hsA hh hp0 hp hq]
  dsimp only
  rw [hsl, hsl]
  rw [if_neg (fun hc => by simp [h80] at hc),
    if_neg (fun hc => by simp [h443] at hc),
    if_neg (show ¬ p.data = [] by rw [hpd]; simp)]
  rfl

lemma pathNorm_append_slash (p : String)
    (hp0 : p.data.head? = some '/')
    (hne : ∃ c ∈ p.data, c ≠ '/') :
    pathNorm (p ++ "/") = pathNorm p := by
  obtain ⟨pt, hpd⟩ : ∃ pt, p.data = '/' :: pt := by
    cases hpdd : p.data with
    | nil => simp [hpdd] at hp0
    | cons a t =>
      rw [hpdd] at hp0
      simp only [List.head?_cons, Option.some.injEq] at hp0
      exact ⟨t, by rw [hp0]⟩
  have hp1 : ¬ p = "/" := by
    intro he
    obtain ⟨c, hc, hcn⟩ := hne
    rw [he] at hc
    simp only [show ("/" : String).data = ['/'] from rfl, List.mem_singleton] at hc
    exact hcn hc
  have hps1 : ¬ (p ++ "/") = "/" := by
    intro he
    have hlen := congrArg (fun t : String => t.data.length) he
    simp only [String.data_append] at hlen
    rw [hpd] at hlen
    simp [show ("/" : String).data = ['/'] from rfl] at hlen
  have hend2 : strEndsWith "/" (p ++ "/") = true := by
    unfold strEndsWith
    rw [String.data_append]
    have : ((p.data ++ ("/" : String).data)).reverse =
        '/' :: p.data.reverse := by
      simp [show ("/" : String).data = ['/'] from rfl]
    rw [this]
    exact (subAt_single '/' _).2 rfl
  unfold pathNorm
  rw [if_pos ⟨hps1, hend2⟩]
  by_cases hend : strEndsWith "/" p = true
  · rw [if_pos ⟨hp1, hend⟩]
    congr 1
    rw [String.data_append]
    have : ((p.data ++ ("/" : String).data)).reverse =
        '/' :: p.data.reverse := by
      simp [show ("/" : String).data = ['/'] from rfl]
    rw [this, List.dropWhile_cons, if_pos (by simp)]
  · rw [if_neg (fun hc => hend hc.2)]
    have hh0 : ∀ a, p.data.reverse.head? = some a → ¬ a = '/' := by
      intro a ha hc
      apply hend
      unfold strEndsWith
      subst hc
      exact (subAt_single '/' _).2 ha
    have hstep : ((p ++ "/").data.reverse.dropWhile (fun c => c = '/')).reverse
        = p.data := by
      rw [String.data_append]
      have : ((p.data ++ ("/" : String).data)).reverse =
          '/' :: p.data.reverse := by
        simp [show ("/" : String).data = ['/'] from rfl]
      rw [this, List.dropWhile_cons, if_pos (by simp)]
      cases hr : p.data.reverse with
      | nil => simp at hr; rw [hr] at hpd; simp at hpd
      | cons a t =>
        rw [List.dropWhile_cons,
          if_neg (by simp [hh0 a (by rw [hr]; rfl)])]
        rw [← hr, List.reverse_reverse]
    rw [hstep]

lemma splitChar_append_sep (c : Char) (l₁ l₂ : List Char)
    (h : ∀ x ∈ l₁, ¬ x = c) :
    splitChar c (l₁ ++ c :: l₂) = l₁ :: splitChar c l₂ := by
  induction l₁ with
  | nil => simp [splitChar]
  | cons a t ih =>
    have ha : ¬ a = c := h a (by simp)
    simp only [List.cons_append, splitChar, if_neg ha]
    simp only [List.append_eq]
    rw [ih (fun x hx => h x (List.mem_cons_of_mem _ hx))]

lemma parse_qsl_filterMap (q : String) :
    parse_qsl q = (splitChar '&' q.data).filterMap qslChunk := by
  unfold parse_qsl
  by_cases hqe : q.data = []
  · rw [if_pos hqe, hqe]
    rfl
  · rw [if_neg hqe]

lemma qslChunk_pair (tk tv : String)
    (htke : ∀ c ∈ tk.data, ¬ c = '=')
    (htkp : ∀ c ∈ tk.data, ¬ c = '+')
    (htkpc : ¬ '%' ∈ tk.data)
    (htv : tv.data ≠ []) :
    qslChunk (tk.data ++ '=' :: tv.data) =
      some (tk, pyUnquote ⟨tv.data.map (fun c => if c = '+' then ' ' else c)⟩) := by
  unfold qslChunk
  rw [if_neg (by simp)]
  rw [findIdxq_append_ff _ _ _ (fun c hc => by simp [htke c hc]),
    findIdxq_cons_true _ _ _ (by simp)]
  dsimp only
  simp only [Nat.zero_add]
  rw [List.take_left]
  have hdrop : (tk.data ++ '=' :: tv.data).drop (tk.data.length + 1) =
      tv.data := by
    have hre : tk.data ++ '=' :: tv.data = (tk.data ++ ['=']) ++ tv.data := by
      simp
    have hlen : tk.data.length + 1 = (tk.data ++ ['=']).length := by simp
    rw [hre, hlen, List.drop_left]
  rw [hdrop, if_pos htv]
  have hmap : tk.data.map (fun c => if c = '+' then ' ' else c) = tk.data := by
    rw [List.map_congr_left (fun c hc => by rw [if_neg (htkp c hc)])]
    exact List.map_id _
  rw [hmap]
  have hunq : pyUnquote ⟨tk.data⟩ = ⟨tk.data⟩ := by
    unfold pyUnquote
    rw [if_neg htkpc]
  rw [hunq]

lemma filter_map_upd (P : String → Bool) (k : String) (v : String)
    (hP : P k = false) (d : List (String × List String)) :
    (d.map (fun kv => if kv.1 = k then (kv.1, kv.2 ++ [v]) else kv)).filter
      (fun kv => P kv.1) = d.filter (fun kv => P kv.1) := by
  induction d with
  | nil => rfl
  | cons kv t ih =>
    by_cases hk : kv.1 = k
    · simp only [List.map_cons, if_pos hk, List.filter_cons]
      rw [show P (kv.1, kv.2 ++ [v]).1 = false by simpa [hk] using hP]
      simpa using ih
    · simp only [List.map_cons, if_neg hk, List.filter_cons]
      by_cases hPk : P kv.1 = true
      · rw [if_pos hPk, if_pos hPk, ih]
      · rw [if_neg hPk, if_neg hPk, ih]

lemma filter_dictAdd (P : String → Bool) (d : List (String × List String))
    (k : String) (v : String) :
    (dictAdd d k v).filter (fun kv => P kv.1) =
      if P k = true then dictAdd (d.filter (fun kv => P kv.1)) k v
      else d.filter (fun kv => P kv.1) := by
  by_cases hP : P k = true
  · rw [if_pos hP]
    unfold dictAdd
    by_cases hany : d.any (fun kv => kv.1 = k) = true
    · rw [if_pos hany]
      have hany2 : (d.filter (fun kv => P kv.1)).any
          (fun kv => kv.1 = k) = true := by
        rw [List.any_eq_true] at hany ⊢
        obtain ⟨kv, hkv, hk⟩ := hany
        simp only [decide_eq_true_eq] at hk
        exact ⟨kv, List.mem_filter.2 ⟨hkv, by rw [hk]; exact hP⟩,
          by simp [hk]⟩
      rw [if_pos hany2, List.filter_map]
      congr 1
      apply List.filter_congr
      intro kv _
      by_cases hk : kv.1 = k <;> simp [Function.comp, hk]
    · rw [if_neg hany]
      have hany2 : ¬ (d.filter (fun kv => P kv.1)).any
          (fun kv => kv.1 = k) = true := by
        intro hc
        apply hany
        rw [List.any_eq_true] at hc ⊢
        obtain ⟨kv, hkv, hk⟩ := hc
        exact ⟨kv, (List.mem_filter.1 hkv).1, hk⟩
      rw [if_neg hany2, List.filter_append]
      congr 1
      simp [hP]
  · rw [if_neg hP]
    unfold dictAdd
    by_cases hany : d.any (fun kv => kv.1 = k) = true
    · rw [if_pos hany]
      exact filter_map_upd P k v (by simpa using hP) d
    · rw [if_neg hany, List.filter_append]
      have : ([(k, [v])] : List (String × List String)).filter
          (fun kv => P kv.1) = [] := by
        simp [show P k = false by simpa using hP]
      rw [this, List.append_nil]

lemma foldl_dictAdd_filter (P : String → Bool)
    (pairs : List (String × String)) :
    ∀ d, (pairs.foldl (fun d kv => dictAdd d kv.1 kv.2) d).filter
        (fun kv => P kv.1) =
      ((pairs.filter (fun kv => P kv.1)).foldl
        (fun d kv => dictAdd d kv.1 kv.2) (d.filter (fun kv => P kv.1))) := by
  induction pairs with
  | nil => intro d; simp
  | cons kv t ih =>
    intro d
    simp only [List.foldl_cons, List.filter_cons]
    by_cases hP : P kv.1 = true
    · rw [if_pos (by simpa using hP)]
      rw [ih (dictAdd d kv.1 kv.2), filter_dictAdd, if_pos hP]
      simp only [List.foldl_cons]
    · rw [if_neg (by simpa using hP)]
      rw [ih (dictAdd d kv.1 kv.2), filter_dictAdd, if_neg hP]

/-- **C6 counterexample** `"http://ex.com//"` and `"http://ex.com/"`
differ only by a trailing slash, yet normalize to `"http://ex.com"`
and `"http://ex.com/"` respectively: for slash-only paths the
trailing-slash claim fails. -/
theorem c6_trailing_slash_counterexample :
    normalize "http://ex.com//" ≠ normalize "http://ex.com/" := by
  decide

lemma scheme_facts (s : String) (hs : s = "http" ∨ s = "https") :
    s.data ≠ [] ∧
    (∀ c ∈ s.data, isC0ControlOrSpace c = false ∧
      isUnsafeUrlByte c = false ∧ ¬ c = ':' ∧ scheme_chars.contains c = true) ∧
    (match s.data.head? with
      | some c => c.isAlpha
      | none => false) = true ∧
    pyLower s = s := by
  rcases hs with rfl | rfl
  · exact ⟨by decide, by decide, by decide, by decide⟩
  · exact ⟨by decide, by decide, by decide, by decide⟩

/-- **C6** (amended) Tracking-parameter and trailing-slash
insensitivity hold for well-formed absolute URLs whose path is not
made of slashes only: for `http(s)` URLs built from a clean host and
a path `/...` containing a non-slash character, appending a trailing
slash does not change the normalization; prepending a tracking
parameter `tk=tv&` whose key lowercases into `STRIP_PARAMS` to the
query does not change the normalization; and concretely
`normalize "https://EX.com/a/?utm_source=x" =
normalize "https://ex.com/a"`. -/
theorem c6_normalization_equivalence :
    (∀ s h p q : String,
      (s = "http" ∨ s = "https") →
      h.data ≠ [] →
      (∀ c ∈ h.data, hostOkChar c = true) →
      p.data.head? = some '/' →
      (∀ c ∈ p.data, pathOkChar c = true) →
      (∃ c ∈ p.data, c ≠ '/') →
      (∀ c ∈ q.data, queryOkChar c = true) →
      normalize (mkUrl s h (p ++ "/") q) = normalize (mkUrl s h p q)) ∧
    (∀ s h p q tk tv : String,
      (s = "http" ∨ s = "https") →
      h.data ≠ [] →
      (∀ c ∈ h.data, hostOkChar c = true) →
      p.data.head? = some '/' →
      (∀ c ∈ p.data, pathOkChar c = true) →
      (∀ c ∈ q.data, queryOkChar c = true) →
      (∀ c ∈ tk.data, queryOkChar c = true ∧
        ¬ c = '&' ∧ ¬ c = '=' ∧ ¬ c = '+' ∧ ¬ c = '%') →
      (∀ c ∈ tv.data, queryOkChar c = true ∧ ¬ c = '&') →
      tv.data ≠ [] →
      pyLower tk ∈ STRIP_PARAMS →
      normalize (mkUrl s h p (tk ++ "=" ++ tv ++ "&" ++ q)) =
        normalize (mkUrl s h p q)) ∧
    normalize "https://EX.com/a/?utm_source=x" = normalize "https://ex.com/a" := by
  refine ⟨?_, ?_, by decide⟩
  · intro s h p q hs hh0 hh hp0 hp hne hq
    obtain ⟨hs1, hsC, hsA, hsl⟩ := scheme_facts s hs
    have hp0' : (p ++ "/").data.head? = some '/' := by
      rw [String.data_append, List.head?_append, hp0]
      rfl
    have hp' : ∀ c ∈ (p ++ "/").data, pathOkChar c = true := by
      intro c hc
      rw [String.data_append] at hc
      rcases List.mem_append.1 hc with h1 | h1
      · exact hp c h1
      · simp only [show ("/" : String).data = ['/'] from rfl,
          List.mem_singleton] at h1
        subst h1
        decide
    rw [normalize_mkUrl s h (p ++ "/") q hs1 hsC hsA hsl hh hp0' hp' hq,
      normalize_mkUrl s h p q hs1 hsC hsA hsl hh hp0 hp hq,
      pathNorm_append_slash p hp0 hne]
  · intro s h p q tk tv hs hh0 hh hp0 hp hq htk htv htvne hstrip
    obtain ⟨hs1, hsC, hsA, hsl⟩ := scheme_facts s hs
    have hTKq : ∀ c ∈ (tk ++ "=" ++ tv ++ "&" ++ q).data,
        queryOkChar c = true := by
      intro c hc
      simp only [String.data_append, List.append_assoc, List.mem_append,
        List.mem_singleton, show ("=" : String).data = ['='] from rfl,
        show ("&" : String).data = ['&'] from rfl] at hc
      rcases hc with h1 | h1 | h1 | h1 | h1
      · exact (htk c h1).1
      · subst h1; decide
      · exact (htv c h1).1
      · subst h1; decide
      · exact hq c h1
    rw [normalize_mkUrl s h p (tk ++ "=" ++ tv ++ "&" ++ q)
        hs1 hsC hsA hsl hh hp0 hp hTKq,
      normalize_mkUrl s h p q hs1 hsC hsA hsl hh hp0 hp hq]
    have hTKdata : (tk ++ "=" ++ tv ++ "&" ++ q).data =
        (tk.data ++ '=' :: tv.data) ++ '&' :: q.data := by
      simp [String.data_append, show ("=" : String).data = ['='] from rfl,
        show ("&" : String).data = ['&'] from rfl]
    have hsplit : splitChar '&' (tk ++ "=" ++ tv ++ "&" ++ q).data =
        (tk.data ++ '=' :: tv.data) :: splitChar '&' q.data := by
      rw [hTKdata]
      apply splitChar_append_sep
      intro x hx
      rcases List.mem_append.1 hx with h1 | h1
      · exact (htk x h1).2.1
      · rcases List.mem_cons.1 h1 with h2 | h2
        · subst h2; decide
        · exact (htv x h2).2
    have hqsl : parse_qsl (tk ++ "=" ++ tv ++ "&" ++ q) =
        (tk, pyUnquote ⟨tv.data.map (fun c => if c = '+' then ' ' else c)⟩)
          :: parse_qsl q := by
      rw [parse_qsl_filterMap, hsplit,
        List.filterMap_cons_some
          (qslChunk_pair tk tv (fun c hc => (htk c hc).2.2.1)
            (fun c hc => (htk c hc).2.2.2.1)
            (fun hm => (htk '%' hm).2.2.2.2 rfl) htvne),
        ← parse_qsl_filterMap]
    have hfeq : (parse_qs (tk ++ "=" ++ tv ++ "&" ++ q)).filter
          (fun kv => decide (¬ pyLower kv.1 ∈ STRIP_PARAMS)) =
        (parse_qs q).filter
          (fun kv => decide (¬ pyLower kv.1 ∈ STRIP_PARAMS)) := by
      have hlemma1 := foldl_dictAdd_filter
        (fun k => decide (¬ pyLower k ∈ STRIP_PARAMS)) (parse_qsl q)
        (dictAdd [] tk
          (pyUnquote ⟨tv.data.map (fun c => if c = '+' then ' ' else c)⟩))
      have hlemma2 := foldl_dictAdd_filter
        (fun k => decide (¬ pyLower k ∈ STRIP_PARAMS)) (parse_qsl q) []
      simp only [] at hlemma1 hlemma2
      have hbase : (dictAdd []
          tk (pyUnquote ⟨tv.data.map (fun c => if c = '+' then ' ' else c)⟩)).filter
          (fun kv => decide (¬ pyLower kv.1 ∈ STRIP_PARAMS)) = [] := by
        simp [dictAdd, hstrip]
      show ((parse_qsl (tk ++ "=" ++ tv ++ "&" ++ q)).foldl
          (fun d kv => dictAdd d kv.1 kv.2) []).filter
          (fun kv => decide (¬ pyLower kv.1 ∈ STRIP_PARAMS)) = _
      rw [hqsl, List.foldl_cons]
      rw [hlemma1, hbase]
      show _ = ((parse_qsl q).foldl (fun d kv => dictAdd d kv.1 kv.2) []).filter
        (fun kv => decide (¬ pyLower kv.1 ∈ STRIP_PARAMS))
      rw [hlemma2]
      rfl
    unfold queryNorm
    rw [hfeq]

theorem c6_normalization_equivalence_witness :
    normalize (mkUrl "http" "ex.com" ("/a" ++ "/") "") =
        normalize (mkUrl "http" "ex.com" "/a" "") ∧
    normalize (mkUrl "http" "ex.com" "/a"
        ("utm_source" ++ "=" ++ "x" ++ "&" ++ "b=2")) =
      normalize (mkUrl "http" "ex.com" "/a" "b=2") :=
  ⟨c6_normalization_equivalence.1 "http" "ex.com" "/a" "" (Or.inl rfl)
      (by decide) (by decide) (by decide) (by decide) (by decide) (by decide),
   c6_normalization_equivalence.2.1 "http" "ex.com" "/a" "b=2" "utm_source" "x"
      (Or.inl rfl) (by decide) (by decide) (by decide) (by decide) (by decide)
      (by decide) (by decide) (by decide) (by decide)⟩

end WebSpy
